/-
Verification of the ParallelPlagiarismChecker comparison pipeline.

The scoring core of the repository (src/utils/comparison.py) delegates to
Python's difflib.SequenceMatcher(None, code1, code2) with its default
autojunk=True heuristic.  We embed that algorithm shallowly over
`List Char`:

* `positionsOf` mirrors the b2j index construction of
  difflib.SequenceMatcher.__chain_b (insertion order = ascending positions);
* `isPopular`/`b2j` mirror the autojunk "popular element" purge
  (elements occurring more than n/100 + 1 times when n = len(b) >= 200);
* `find_longest_match` mirrors difflib's dynamic-programming loop plus the
  two non-junk extension loops (isjunk is None here, so bjunk is empty and
  the two junk-extension loops of the source are identities and are omitted);
* `processQueue`/`collapseAdjacent`/`get_matching_blocks` mirror
  difflib.SequenceMatcher.get_matching_blocks (explicit work queue, final
  sort, collapse of adjacent blocks, terminating (la, lb, 0) sentinel);
* `calculate_ratio`/`ratioOf`/`pairScore` mirror difflib._calculate_ratio
  and `round(matcher.ratio() * 100, 2)` of compare_pair.  Python's float
  round-half-to-even at two decimals is embedded over ℚ as `pyRound2`.

The queue recursion of get_matching_blocks is embedded with an explicit
fuel argument; `a.length + b.length + 1` bounds the total measure of the
initial queue and every step strictly decreases that measure (lemma
`processQueue_measure` below), so the fuel never runs out.

Pool.map / Pool.starmap preserve the order of their input iterable, so the
parallel maps of comparison.py and preprocessing.py are embedded as
`List.map`.  Worker results are collected before any downstream use, hence
the process-pool parallelism is observationally a sequential map.
-/
import Mathlib

namespace Plag

/-! ### Python whitespace, lowercasing, and the normalizer
(src/utils/preprocessing.py) -/

/-- Python's `\s` class restricted to the ASCII range (the inputs the
normalizer handles are text files decoded with errors='ignore'). -/
def isPySpace (c : Char) : Bool :=
  c = ' ' || c = '\t' || c = '\n' || c = '\r' || c = '\x0b' || c = '\x0c'

/-- Split on newline characters, mirroring how the line-anchored regexes of
preprocessing.py act per line.  `re.sub(r'#.*', '', code)` truncates every
line at its first `#`; the `^\s*import .*` / `^\s*from .* import .*`
substitutions blank the matched line (leading `\s*` spanning a preceding
newline removes only extra whitespace, which the final
whitespace-collapsing `normalize_code` pass erases anyway, so the
line-based embedding is observationally equivalent after normalization). -/
def splitLines : List Char → List (List Char)
  | [] => [[]]
  | c :: cs =>
    let r := splitLines cs
    if c = '\n' then [] :: r
    else
      match r with
      | [] => [[c]]
      | l :: ls => (c :: l) :: ls

def joinLines : List (List Char) → List Char
  | [] => []
  | [l] => l
  | l :: ls => l ++ '\n' :: joinLines ls

/-- Collapse every run of whitespace to a single space:
`re.sub(r'\s+', ' ', code)`.  The Boolean records whether we are inside a
whitespace run (i.e. the previous character was whitespace), so each
maximal run emits exactly one space. -/
def collapseWsAux : Bool → List Char → List Char
  | _, [] => []
  | inRun, c :: cs =>
    if isPySpace c then
      if inRun then collapseWsAux true cs else ' ' :: collapseWsAux true cs
    else c :: collapseWsAux false cs

def collapseWs (l : List Char) : List Char :=
  collapseWsAux false l

/-- Python str.strip(): drop leading and trailing whitespace. -/
def pyStrip (l : List Char) : List Char :=
  ((l.dropWhile isPySpace).reverse.dropWhile isPySpace).reverse

/-- normalize_code of preprocessing.py: lowercase, collapse whitespace
runs to single spaces, strip. -/
def normalize_code (code : List Char) : List Char :=
  pyStrip (collapseWs (code.map Char.toLower))

/-- Line matched by `^\s*import .*`: optional leading whitespace then
the seven characters `import` + space. -/
def isImportLine (line : List Char) : Bool :=
  ("import ").toList.isPrefixOf (line.dropWhile isPySpace)

/-- Contiguous-sublist test used for the `from .* import .*` pattern. -/
def hasSub (pat : List Char) : List Char → Bool
  | [] => pat.isEmpty
  | c :: cs => pat.isPrefixOf (c :: cs) || hasSub pat cs

/-- Line matched by `^\s*from .* import .*`. -/
def isFromImportLine (line : List Char) : Bool :=
  let rest := line.dropWhile isPySpace
  ("from ").toList.isPrefixOf rest &&
    hasSub (" import ").toList (rest.drop 5)

/-- remove_python_boilerplate of preprocessing.py: strip `#` comments,
blank `import`/`from ... import` lines, then normalize. -/
def remove_python_boilerplate (code : List Char) : List Char :=
  let c1 := joinLines ((splitLines code).map (fun l => l.takeWhile (· ≠ '#')))
  let c2 := joinLines ((splitLines c1).map (fun l => if isImportLine l then [] else l))
  let c3 := joinLines ((splitLines c2).map (fun l => if isFromImportLine l then [] else l))
  normalize_code c3

/-! ### difflib.SequenceMatcher, as instantiated by compare_pair -/

/-- One matching block: difflib's `Match(a, b, size)` named tuple,
`a[i : i+size] == b[j : j+size]`. -/
structure Match where
  a : Nat
  b : Nat
  size : Nat
deriving DecidableEq

/-- Ascending positions of `c` in `b` starting at offset `i`: the list
`b2j[c]` built by SequenceMatcher.__chain_b before the junk/popular purge
(`for i, elt in enumerate(b): b2j.setdefault(elt, []).append(i)`). -/
def positionsAux (c : Char) : List Char → Nat → List Nat
  | [], _ => []
  | x :: xs, i => if x = c then i :: positionsAux c xs (i + 1) else positionsAux c xs (i + 1)

def positionsOf (b : List Char) (c : Char) : List Nat :=
  positionsAux c b 0

/-- The autojunk "popular" purge of __chain_b: with autojunk=True (the
default used by compare_pair) and `n = len(b) >= 200`, elements occurring
more than `n // 100 + 1` times are removed from b2j. -/
def isPopular (b : List Char) (c : Char) : Bool :=
  decide (200 ≤ b.length) && decide (b.length / 100 + 1 < (positionsOf b c).length)

/-- The final b2j map of __chain_b (isjunk is None, so only the popular
purge applies). -/
def b2j (b : List Char) (c : Char) : List Nat :=
  if isPopular b c then [] else positionsOf b c

/-- Inner loop of find_longest_match over `b2j.get(a[i], [])`:
`if j < blo: continue`, `if j >= bhi: break`,
`k = newj2len[j] = j2len.get(j-1, 0) + 1`, best updated on `k > bestsize`.
Dictionaries `j2len`/`newj2len` are embedded as total functions defaulting
to 0; Python's `j2len.get(j-1, 0)` at `j = 0` looks up key `-1` and yields
0, hence the explicit `j = 0` guard. -/
def innerLoop (prev : Nat → Nat) (blo bhi i : Nat) :
    List Nat → (Nat → Nat) → Match → ((Nat → Nat) × Match)
  | [], news, best => (news, best)
  | j :: js, news, best =>
    if j < blo then innerLoop prev blo bhi i js news best
    else if bhi ≤ j then (news, best)
    else
      let k := (if j = 0 then 0 else prev (j - 1)) + 1
      let news' := fun v => if v = j then k else news v
      let best' := if best.size < k then ⟨i + 1 - k, j + 1 - k, k⟩ else best
      innerLoop prev blo bhi i js news' best'

/-- Outer loop of find_longest_match over `i in range(alo, ahi)`;
`newj2len` starts empty at each `i` and replaces `j2len` afterwards. -/
def outerLoop (a : List Char) (bmap : Char → List Nat) (blo bhi : Nat) :
    List Nat → (Nat → Nat) → Match → Match
  | [], _, best => best
  | i :: is, prev, best =>
    let s := innerLoop prev blo bhi i (bmap (a.getD i ' ')) (fun _ => 0) best
    outerLoop a bmap blo bhi is s.1 s.2

/-- The list `range(alo, ahi)` = `natRange alo (ahi - alo)`. -/
def natRange (s : Nat) : Nat → List Nat
  | 0 => []
  | n + 1 => s :: natRange (s + 1) n

/-- First extension loop of find_longest_match: grow the best block
backwards while the preceding elements are equal (non-junk: bjunk is
empty).  `while besti > alo and bestj > blo and a[besti-1] == b[bestj-1]`;
the loop decrements besti, so the recursion is structural in it (at
`besti = 0` the `besti > alo` test is necessarily false). -/
def extendBack (a b : List Char) (alo blo : Nat) : Nat → Nat → Nat → Match
  | 0, bj, bs => ⟨0, bj, bs⟩
  | bi + 1, bj, bs =>
    if alo < bi + 1 ∧ blo < bj ∧ a[bi]? = b[bj - 1]? then
      extendBack a b alo blo bi (bj - 1) (bs + 1)
    else ⟨bi + 1, bj, bs⟩

/-- Second extension loop of find_longest_match: grow the best block
forwards while the following elements are equal.
`while besti+bestsize < ahi and bestj+bestsize < bhi and
a[besti+bestsize] == b[bestj+bestsize]: bestsize += 1`.  The counter is
`ahi - (besti + bestsize)`, which the loop condition keeps positive and
each iteration decrements, giving a structural recursion. -/
def extendFwdAux (a b : List Char) (bhi bi bj : Nat) : Nat → Nat → Nat
  | 0, bs => bs
  | n + 1, bs =>
    if bj + bs < bhi ∧ a[bi + bs]? = b[bj + bs]? then
      extendFwdAux a b bhi bi bj n (bs + 1)
    else bs

def extendFwd (a b : List Char) (ahi bhi bi bj : Nat) (bs : Nat) : Nat :=
  extendFwdAux a b bhi bi bj (ahi - (bi + bs)) bs

/-- find_longest_match(alo, ahi, blo, bhi) of SequenceMatcher, with the
precomputed b2j map passed explicitly (it is instance state in the
source).  The two trailing junk-extension loops of the source are
identities because isjunk is None (bjunk = ∅) and are omitted. -/
def find_longest_match (a b : List Char) (bmap : Char → List Nat)
    (alo ahi blo bhi : Nat) : Match :=
  let best := outerLoop a bmap blo bhi (natRange alo (ahi - alo)) (fun _ => 0) ⟨alo, blo, 0⟩
  let bk := extendBack a b alo blo best.a best.b best.size
  ⟨bk.a, bk.b, extendFwd a b ahi bhi bk.a bk.b bk.size⟩

/-- A queue entry `(alo, ahi, blo, bhi)` of get_matching_blocks. -/
structure Region where
  alo : Nat
  ahi : Nat
  blo : Nat
  bhi : Nat
deriving DecidableEq

/-- Total measure of the outstanding work queue; each processQueue step
strictly decreases it. -/
def qMeasure (queue : List Region) : Nat :=
  (queue.map (fun r => (r.ahi - r.alo) + (r.bhi - r.blo) + 1)).sum

/-- The `while queue:` loop of get_matching_blocks.  Python appends the
left sub-region then the right one and pops from the end (LIFO), which is
cons/head here.  The accumulated blocks are sorted afterwards, so the
accumulation order is irrelevant to the result.  Fuel bounds the number of
iterations; `qMeasure` of the initial queue suffices (see
`processQueue_measure`). -/
def processQueue (a b : List Char) (bmap : Char → List Nat) :
    Nat → List Region → List Match → List Match
  | _, [], acc => acc
  | 0, _ :: _, acc => acc
  | fuel + 1, r :: queue, acc =>
    let m := find_longest_match a b bmap r.alo r.ahi r.blo r.bhi
    if m.size ≠ 0 then
      let q1 := if r.alo < m.a ∧ r.blo < m.b then Region.mk r.alo m.a r.blo m.b :: queue else queue
      let q2 :=
        if m.a + m.size < r.ahi ∧ m.b + m.size < r.bhi then
          Region.mk (m.a + m.size) r.ahi (m.b + m.size) r.bhi :: q1
        else q1
      processQueue a b bmap fuel q2 (m :: acc)
    else processQueue a b bmap fuel queue acc

/-- Lexicographic order on Match triples: Python's `matching_blocks.sort()`
on `(i, j, k)` tuples. -/
def blockLE (x y : Match) : Prop :=
  x.a < y.a ∨ (x.a = y.a ∧ (x.b < y.b ∨ (x.b = y.b ∧ x.size ≤ y.size)))

instance : DecidableRel blockLE := fun x y => by
  unfold blockLE; infer_instance

instance : IsTotal Match blockLE :=
  ⟨fun x y => by unfold blockLE; omega⟩

instance : IsTrans Match blockLE :=
  ⟨fun x y z hxy hyz => by unfold blockLE at *; omega⟩

/-- The adjacent-block collapsing loop of get_matching_blocks, threading
the current candidate block `(i1, j1, k1)` (initially `(0, 0, 0)`). -/
def collapseAdjacent (i1 j1 k1 : Nat) : List Match → List Match
  | [] => if k1 ≠ 0 then [⟨i1, j1, k1⟩] else []
  | m :: ms =>
    if i1 + k1 = m.a ∧ j1 + k1 = m.b then collapseAdjacent i1 j1 (k1 + m.size) ms
    else (if k1 ≠ 0 then [⟨i1, j1, k1⟩] else []) ++ collapseAdjacent m.a m.b m.size ms

/-- get_matching_blocks of SequenceMatcher, parameterised by the b2j map:
queue loop, lexicographic sort, adjacent collapse, and the terminating
`(len(a), len(b), 0)` sentinel. -/
def matchingBlocksWith (a b : List Char) (bmap : Char → List Nat) : List Match :=
  collapseAdjacent 0 0 0
      (List.insertionSort blockLE
        (processQueue a b bmap (a.length + b.length + 1) [⟨0, a.length, 0, b.length⟩] []))
    ++ [⟨a.length, b.length, 0⟩]

/-- get_matching_blocks as compare_pair runs it: autojunk-filtered b2j. -/
def get_matching_blocks (a b : List Char) : List Match :=
  matchingBlocksWith a b (b2j b)

/-- `matches = sum(triple[-1] for triple in self.get_matching_blocks())`. -/
def matchesTotal (a b : List Char) : Nat :=
  ((get_matching_blocks a b).map Match.size).sum

/-- difflib._calculate_ratio over ℚ: `2.0 * matches / length` when the
total length is nonzero, else 1.0. -/
def calculate_ratio (m len : Nat) : ℚ :=
  if len ≠ 0 then 2 * (m : ℚ) / (len : ℚ) else 1

/-- SequenceMatcher.ratio() for the pair. -/
def ratioOf (a b : List Char) : ℚ :=
  calculate_ratio (matchesTotal a b) (a.length + b.length)

/-- Round to the nearest integer, ties to even: Python's round() on the
exact rational value. -/
def roundHalfEven (q : ℚ) : ℤ :=
  let f := ⌊q⌋
  let r := q - (f : ℚ)
  if r < 1 / 2 then f
  else if 1 / 2 < r then f + 1
  else if f % 2 = 0 then f else f + 1

/-- Python `round(x, 2)` over ℚ. -/
def pyRound2 (q : ℚ) : ℚ :=
  (roundHalfEven (q * 100) : ℚ) / 100

/-- The similarity score of compare_pair:
`round(matcher.ratio() * 100, 2)`. -/
def pairScore (a b : List Char) : ℚ :=
  pyRound2 (ratioOf a b * 100)

/-! ### The spec-side junk-free matcher.

The specification describes the per-pair score as `2 * M / T` with `M`
"found by a greedy longest-matching-block alignment over the two
normalized character sequences (junk-free matching: every character
participates, no noise filtering)".  That is this same algorithm with an
unfiltered b2j map. -/

/-- Modelled from the spec: matching blocks of the junk-free greedy
longest-matching-block alignment (no autojunk popular-element purge, every
character of b participates). -/
def specMatchingBlocks (a b : List Char) : List Match :=
  matchingBlocksWith a b (positionsOf b)

/-- Modelled from the spec: total matched length M of the junk-free
alignment. -/
def specMatchesTotal (a b : List Char) : Nat :=
  ((specMatchingBlocks a b).map Match.size).sum

/-- Modelled from the spec: the ratio 2*M/T of the junk-free alignment
(1 when both sequences are empty). -/
def specRatio (a b : List Char) : ℚ :=
  calculate_ratio (specMatchesTotal a b) (a.length + b.length)

/-! ### compare_pair, pairing, parallel map, and the results store
(src/utils/comparison.py) -/

/-- A file handed to the scoring engine: its basename and its (already
preprocessed) text content.  compare_pair reads the two files and reports
`os.path.basename` of each path, embedded here as the `name` field. -/
structure SrcFile where
  name : String
  content : List Char
deriving DecidableEq

/-- The 6-tuple returned by compare_pair:
`(basename1, basename2, score, code1, code2, matching_blocks)`. -/
structure PairResult where
  file1 : String
  file2 : String
  score : ℚ
  code1 : List Char
  code2 : List Char
  blocks : List Match
deriving DecidableEq

def compare_pair (f1 f2 : SrcFile) : PairResult :=
  ⟨f1.name, f2.name, pairScore f1.content f2.content,
    f1.content, f2.content, get_matching_blocks f1.content f2.content⟩

/-- `itertools.combinations(file_paths, 2)` in its documented order. -/
def generate_file_pairs {α : Type} : List α → List (α × α)
  | [] => []
  | x :: xs => xs.map (fun y => (x, y)) ++ generate_file_pairs xs

/-- `pool.starmap(compare_pair, pairs)`: an order-preserving map. -/
def run_parallel_comparison (files : List SrcFile) : List PairResult :=
  (generate_file_pairs files).map (fun p => compare_pair p.1 p.2)

/-- The durable results table: save_results_to_csv builds a 6-column
DataFrame but persists only the three named columns, in this order. -/
structure CsvTable where
  header : List String
  rows : List (String × String × ℚ)
deriving DecidableEq

def save_results_to_csv (results : List PairResult) : CsvTable :=
  ⟨["File 1", "File 2", "Similarity %"],
    results.map (fun r => (r.file1, r.file2, r.score))⟩

/-- Reading the persisted table back (pd.read_csv in app.py): the stored
rows. -/
def readCsvRows (t : CsvTable) : List (String × String × ℚ) :=
  t.rows

/-! ### The preprocessing driver (src/utils/preprocessing.py) and the
batch entry point (src/main.py) -/

/-- The filename filter of run_parallel_preprocessing:
`f.endswith(('.py', '.cpp', '.java', '.h'))`. -/
def preprocessingSelects (f : String) : Bool :=
  (".py").toList.isSuffixOf f.toList || (".cpp").toList.isSuffixOf f.toList ||
    (".java").toList.isSuffixOf f.toList || (".h").toList.isSuffixOf f.toList

/-- run_parallel_preprocessing: enumerate the upload directory, keep the
files passing `preprocessingSelects`, and pool.map preprocess_file over
them.  preprocess_file returns `(file_path, out_path)` on success and
`(file_path, None)` when normalization raises; success of the per-file
I/O is abstracted by the `ok` oracle. -/
def run_parallel_preprocessing (uploadFiles : List String) (ok : String → Bool) :
    List (String × Option String) :=
  (uploadFiles.filter preprocessingSelects).map
    (fun f => (f, if ok f then some ((("data/preprocessed/").toList ++ f.toList).asString) else none))

/-- pathlib's `Path(f).suffix`: the part of the final component from its
last dot, empty when the dot is the first character or the last one. -/
def pathSuffix (f : String) : String :=
  let cs := f.toList
  match cs.reverse.findIdx? (fun c => c = '.') with
  | none => ""
  | some r =>
    let i := cs.length - 1 - r
    if 0 < i ∧ i + 1 < cs.length then (cs.drop i).asString else ""

def pathSuffixLower (f : String) : String :=
  ((pathSuffix f).toList.map Char.toLower).asString

/-- The supported-extension set of main.py (and VALID_EXTENSIONS of
app/helper.py). -/
def VALID_EXTENSIONS : List String :=
  [".py", ".cpp", ".h", ".cc", ".cxx", ".java"]

/-- The upload filter of main.py:
`Path(f).suffix.lower() in {'.py', '.cpp', '.h', '.cc', '.cxx', '.java'}`. -/
def mainSelects (f : String) : Bool :=
  VALID_EXTENSIONS.contains (pathSuffixLower f)

/-- The environment a run of main() observes: whether data/uploads
exists, the plain files it contains, which files preprocess without a
per-file error, and whether writing the results CSV succeeds. -/
structure MainEnv where
  uploadDirExists : Bool
  uploadFiles : List String
  preprocessOk : String → Bool
  saveOk : Bool

/-- Outcome of a main() run: the process exit code, whether an uncaught
exception was raised, whether an error was reported (message printed and
progress stage set to "error"), and whether the results table was
written. -/
structure MainOutcome where
  exitCode : Nat
  raised : Bool
  errorReported : Bool
  wroteResults : Bool
deriving DecidableEq

/-- The successfully preprocessed outputs main() keeps:
`[out_path for _, out_path in preprocessed_files if out_path]`. -/
def usablePreprocessed (env : MainEnv) : List String :=
  (run_parallel_preprocessing env.uploadFiles env.preprocessOk).filterMap Prod.snd

/-- Control flow of main() in src/main.py.  `os.listdir(UPLOAD_DIR)` is
outside every try block, so a missing upload directory raises an uncaught
FileNotFoundError (exit code 1).  The empty-upload, empty-preprocessed and
save-failure paths print a message, write the "error" progress stage and
`return` — exiting with code 0.  Directory creation and the comparison
stage are assumed not to fail (no claim concerns them). -/
def mainRun (env : MainEnv) : MainOutcome :=
  if env.uploadDirExists = false then ⟨1, true, false, false⟩
  else if (env.uploadFiles.filter mainSelects).isEmpty then ⟨0, false, true, false⟩
  else if (usablePreprocessed env).isEmpty then ⟨0, false, true, false⟩
  else if env.saveOk = false then ⟨0, false, true, false⟩
  else ⟨0, false, false, true⟩

/-! ### Invariant predicates used by the verification -/

/-- Invariant of the j2len dictionaries of find_longest_match at the end
of outer iteration `iEnd - 1`: every entry is a junk-free common-suffix
length of `a[.. iEnd)` and `b[.. v]` inside the `[blo, _)` window. -/
def j2lenOk (a b : List Char) (alo blo iEnd : Nat) (f : Nat → Nat) : Prop :=
  (∀ v, f v ≤ iEnd - alo) ∧
    (∀ v, f v ≠ 0 → blo ≤ v ∧ f v ≤ v + 1 - blo) ∧
    (∀ v, f v ≠ 0 → ∀ t, t < f v → a[iEnd - 1 - t]? = b[v - t]?)

/-- Invariant of the running best block: it lies inside the region and
is an actual character-for-character match. -/
def bestOk (a b : List Char) (alo ahi blo bhi : Nat) (m : Match) : Prop :=
  alo ≤ m.a ∧ m.a + m.size ≤ ahi ∧ blo ≤ m.b ∧ m.b + m.size ≤ bhi ∧
    ∀ t, t < m.size → a[m.a + t]? = b[m.b + t]?

/-- Two blocks are separated: one ends (in both sequences) before the
other starts. -/
def SepMM (x y : Match) : Prop :=
  (x.a + x.size ≤ y.a ∧ x.b + x.size ≤ y.b) ∨ (y.a + y.size ≤ x.a ∧ y.b + y.size ≤ x.b)

/-- A block and a pending region are separated. -/
def SepMR (m : Match) (r : Region) : Prop :=
  (m.a + m.size ≤ r.alo ∧ m.b + m.size ≤ r.blo) ∨ (r.ahi ≤ m.a ∧ r.bhi ≤ m.b)

/-- Two pending regions are separated. -/
def SepRR (r s : Region) : Prop :=
  (r.ahi ≤ s.alo ∧ r.bhi ≤ s.blo) ∨ (s.ahi ≤ r.alo ∧ s.bhi ≤ r.blo)

/-- A well-formed pending region of the pair (a, b). -/
def GoodR (a b : List Char) (r : Region) : Prop :=
  r.alo ≤ r.ahi ∧ r.blo ≤ r.bhi ∧ r.ahi ≤ a.length ∧ r.bhi ≤ b.length

/-- A well-formed emitted block of the pair (a, b): nonempty, in bounds,
and an actual match. -/
def GoodM (a b : List Char) (m : Match) : Prop :=
  1 ≤ m.size ∧ m.a + m.size ≤ a.length ∧ m.b + m.size ≤ b.length ∧
    ∀ t, t < m.size → a[m.a + t]? = b[m.b + t]?

/-- Strict ordering of two blocks: the first ends before the second
starts, in both sequences.  The matching-block list reported for a pair
is a chain for this relation (claim C5). -/
def StrictSep (x y : Match) : Prop :=
  x.a + x.size ≤ y.a ∧ x.b + x.size ≤ y.b

/-- The diagonal run length: `dRun s alo j` is the number of consecutive
non-popular positions of s ending at j, counted within `[alo, _)`.  In
the self-comparison `SequenceMatcher(None, s, s)` restricted to a
symmetric window, the j2len entry at the diagonal position j equals
exactly this value, and no off-diagonal entry exceeds it. -/
def dRun (s : List Char) (alo : Nat) : Nat → Nat
  | 0 => if 0 < alo ∨ isPopular s (s.getD 0 ' ') then 0 else 1
  | j + 1 => if j + 1 < alo ∨ isPopular s (s.getD (j + 1) ' ') then 0 else dRun s alo j + 1

/-! ## Theorems -/

/-! ### C6: the persisted results table -/

/-- C6: save_results_to_csv persists exactly the three columns
File 1, File 2, Similarity % in that order — never the text contents or
the matching-block payload — and reading the table back reproduces
exactly the (fileA, fileB, score) triples of the results list. -/
theorem claim6_csv_round_trip (results : List PairResult) :
    (save_results_to_csv results).header = ["File 1", "File 2", "Similarity %"] ∧
      readCsvRows (save_results_to_csv results) =
        results.map (fun r => (r.file1, r.file2, r.score)) := by
  constructor <;> rfl

/-! ### C10: the zero-length sentinel block -/

/-- C10: the matching-block list of every pair ends with the zero-length
sentinel triple (len a, len b, 0); in particular it is never empty. -/
theorem claim10_sentinel (a b : List Char) :
    get_matching_blocks a b ≠ [] ∧
      (get_matching_blocks a b).getLast? =
        some (⟨a.length, b.length, 0⟩ : Match) := by
  unfold get_matching_blocks matchingBlocksWith
  refine ⟨by simp, List.getLast?_concat _⟩

/-! ### C4: symmetry of the similarity score (refuted; the score depends
on the argument order, only the columns swap) -/

/-- C4 counterexample: on contents aba and babba, compare_pair reports
75.0 in one order and 50.0 in the other, so the similarity percentage is
not symmetric. -/
theorem claim4_counterexample :
    (compare_pair ⟨"f1.py", ("aba").toList⟩ ⟨"f2.py", ("babba").toList⟩).score = 75 ∧
      (compare_pair ⟨"f2.py", ("babba").toList⟩ ⟨"f1.py", ("aba").toList⟩).score = 50 ∧
      ¬((compare_pair ⟨"f1.py", ("aba").toList⟩ ⟨"f2.py", ("babba").toList⟩).score =
        (compare_pair ⟨"f2.py", ("babba").toList⟩ ⟨"f1.py", ("aba").toList⟩).score) := by
  have h1 : matchesTotal (("aba").toList) (("babba").toList) = 3 := by decide
  have h2 : matchesTotal (("babba").toList) (("aba").toList) = 2 := by decide
  have e1 : (compare_pair ⟨"f1.py", ("aba").toList⟩ ⟨"f2.py", ("babba").toList⟩).score = 75 := by
    show pairScore (("aba").toList) (("babba").toList) = 75
    rw [pairScore, ratioOf, h1]
    norm_num [calculate_ratio, pyRound2, roundHalfEven]
  have e2 : (compare_pair ⟨"f2.py", ("babba").toList⟩ ⟨"f1.py", ("aba").toList⟩).score = 50 := by
    show pairScore (("babba").toList) (("aba").toList) = 50
    rw [pairScore, ratioOf, h2]
    norm_num [calculate_ratio, pyRound2, roundHalfEven]
  refine ⟨e1, e2, ?_⟩
  rw [e1, e2]
  norm_num

/-- C4 amended: swapping the arguments of compare_pair swaps which
filename appears in which result column (and which text in which payload
slot); the similarity percentages of the two orders are not guaranteed to
coincide (see the counterexample). -/
theorem claim4_column_swap (f1 f2 : SrcFile) :
    (compare_pair f2 f1).file1 = (compare_pair f1 f2).file2 ∧
      (compare_pair f2 f1).file2 = (compare_pair f1 f2).file1 ∧
      (compare_pair f2 f1).code1 = (compare_pair f1 f2).code2 ∧
      (compare_pair f2 f1).code2 = (compare_pair f1 f2).code1 := by
  exact ⟨rfl, rfl, rfl, rfl⟩

/-! ### C7: exit behaviour of the batch entry point (refuted for two of
the three error classes; main returns normally with exit code 0 after
reporting them) -/

/-- C7 counterexample: a run in which the upload directory exists, one
valid file is uploaded, and preprocessing yields zero usable files —
main() prints a message and returns: exit code 0, nothing raised,
contradicting "exits non-zero or raises" for this error class. -/
theorem claim7_counterexample :
    (usablePreprocessed ⟨true, ["a.py"], fun _ => false, true⟩).isEmpty = true ∧
      (mainRun ⟨true, ["a.py"], fun _ => false, true⟩).exitCode = 0 ∧
      (mainRun ⟨true, ["a.py"], fun _ => false, true⟩).raised = false := by
  exact ⟨rfl, rfl, rfl⟩

/-- C7 amended: main() raises (and the process exits non-zero) exactly
when the upload directory is absent; when preprocessing yields zero
usable files, when no valid file is uploaded, or when persisting fails,
it reports the error (message plus "error" progress stage) but exits
zero; in the remaining runs it exits zero after writing the results
table. -/
theorem claim7_exit_behaviour (env : MainEnv) :
    ((mainRun env).exitCode ≠ 0 ↔ env.uploadDirExists = false) ∧
      ((mainRun env).raised = true ↔ env.uploadDirExists = false) ∧
      ((mainRun env).wroteResults = true ↔
        (env.uploadDirExists = true ∧
          (env.uploadFiles.filter mainSelects).isEmpty = false ∧
          (usablePreprocessed env).isEmpty = false ∧ env.saveOk = true)) ∧
      ((mainRun env).errorReported = true ↔
        (env.uploadDirExists = true ∧
          ((env.uploadFiles.filter mainSelects).isEmpty = true ∨
            (usablePreprocessed env).isEmpty = true ∨ env.saveOk = false))) := by
  obtain ⟨de, uf, ok, so⟩ := env
  cases de <;> cases so <;>
    simp only [mainRun, usablePreprocessed] <;>
    split_ifs <;> simp_all <;> tauto

/-! ### C8: the extension filter of the preprocessing driver (refuted:
the driver's own filter omits .cc and .cxx) -/

/-- C8 counterexample: the file a.cc has its (lowercased) extension .cc
in the supported set {.py, .cpp, .h, .cc, .cxx, .java}, yet
run_parallel_preprocessing selects nothing from an upload directory
containing exactly a.cc, because its filter is
`endswith(('.py', '.cpp', '.java', '.h'))`. -/
theorem claim8_counterexample :
    pathSuffixLower ("a.cc") = (".cc") ∧
      (".cc") ∈ VALID_EXTENSIONS ∧
      run_parallel_preprocessing ["a.cc"] (fun _ => true) = [] := by
  refine ⟨rfl, by decide, rfl⟩

/-- C8 amended: the preprocessing driver includes an uploaded file iff
its name ends with one of .py, .cpp, .java, .h (so .cc and .cxx files
are left out even though the upload filter of main.py admits them);
excluded files are silently dropped (they produce no output entry and no
error), and every included file is dispatched to the normalizer, one
output entry per file. -/
theorem claim8_driver_filter (files : List String) (ok : String → Bool) (f : String) :
    (f ∈ (run_parallel_preprocessing files ok).map Prod.fst ↔
      f ∈ files ∧ preprocessingSelects f = true) ∧
      ((run_parallel_preprocessing files ok).map Prod.fst =
        files.filter preprocessingSelects) := by
  constructor
  · simp [run_parallel_preprocessing, List.mem_filter]
  · simp only [run_parallel_preprocessing, List.map_map]
    have : (Prod.fst ∘ fun f : String =>
        (f, if ok f = true
          then some ((("data/preprocessed/").toList ++ f.toList).asString) else none)) =
        fun f => f := rfl
    rw [this, List.map_id']

/-! ### C9: the concrete normalization example -/

/-- C9: a.py containing `import os\n#hi\nprint(1)` and b.py containing
`print(1)` both normalize (Python dialect) to the canonical string
`print(1)`, and scoring that normalized pair yields exactly 100.00. -/
theorem claim9_normalization_example :
    remove_python_boilerplate ("import os\n#hi\nprint(1)").toList = ("print(1)").toList ∧
      remove_python_boilerplate ("print(1)").toList = ("print(1)").toList ∧
      pairScore ("print(1)").toList ("print(1)").toList = 100 := by
  refine ⟨by decide, by decide, ?_⟩
  have h1 : matchesTotal (("print(1)").toList) (("print(1)").toList) = 8 := by decide
  rw [pairScore, ratioOf, h1]
  norm_num [calculate_ratio, pyRound2, roundHalfEven]

/-! ### C1: pairing — helper lemmas on generate_file_pairs -/

theorem generate_file_pairs_length {α : Type} (l : List α) :
    2 * (generate_file_pairs l).length = l.length * (l.length - 1) := by
  induction l with
  | nil => rfl
  | cons x xs ih =>
    have h : (generate_file_pairs (x :: xs)).length =
        xs.length + (generate_file_pairs xs).length := by
      simp [generate_file_pairs]
    rw [h]
    cases hx : xs.length with
    | zero =>
      rw [hx] at ih
      simp only [List.length_cons, hx]
      omega
    | succ m =>
      rw [hx] at ih
      simp only [List.length_cons, hx]
      calc 2 * (m + 1 + (generate_file_pairs xs).length)
          = 2 * (m + 1) + 2 * (generate_file_pairs xs).length := by ring
        _ = 2 * (m + 1) + (m + 1) * (m + 1 - 1) := by rw [ih]
        _ = (m + 1 + 1) * (m + 1 + 1 - 1) := by simp only [Nat.add_sub_cancel]; ring

theorem mem_generate_file_pairs {α : Type} {u v x : α} {xs : List α} :
    (u, v) ∈ generate_file_pairs (x :: xs) ↔
      (u = x ∧ v ∈ xs) ∨ (u, v) ∈ generate_file_pairs xs := by
  simp only [generate_file_pairs, List.mem_append, List.mem_map, Prod.mk.injEq]
  constructor
  · rintro (⟨y, hy, hu, hv⟩ | h)
    · exact Or.inl ⟨hu.symm, hv ▸ hy⟩
    · exact Or.inr h
  · rintro (⟨hu, hv⟩ | h)
    · exact Or.inl ⟨v, hv, hu.symm, rfl⟩
    · exact Or.inr h

theorem generate_file_pairs_mem_both {α : Type} {u v : α} {l : List α}
    (h : (u, v) ∈ generate_file_pairs l) : u ∈ l ∧ v ∈ l := by
  induction l with
  | nil => simp [generate_file_pairs] at h
  | cons x xs ih =>
    rcases mem_generate_file_pairs.1 h with ⟨hu, hv⟩ | h'
    · exact ⟨by simp [hu], by simp [hv]⟩
    · have := ih h'
      exact ⟨List.mem_cons_of_mem _ this.1, List.mem_cons_of_mem _ this.2⟩

theorem generate_file_pairs_ne {α : Type} {l : List α} (hl : l.Nodup)
    {u v : α} (h : (u, v) ∈ generate_file_pairs l) : u ≠ v := by
  induction l with
  | nil => simp [generate_file_pairs] at h
  | cons x xs ih =>
    rcases mem_generate_file_pairs.1 h with ⟨hu, hv⟩ | h'
    · subst hu
      intro e
      exact (List.nodup_cons.1 hl).1 (e ▸ hv)
    · exact ih (List.nodup_cons.1 hl).2 h'

theorem generate_file_pairs_nodup {α : Type} {l : List α} (hl : l.Nodup) :
    (generate_file_pairs l).Nodup := by
  induction l with
  | nil => exact List.nodup_nil
  | cons x xs ih =>
    obtain ⟨hx, hxs⟩ := List.nodup_cons.1 hl
    refine List.Nodup.append ?_ (ih hxs) ?_
    · exact hxs.map (fun a b e => congrArg Prod.snd e)
    · intro p hp hp'
      rcases List.mem_map.1 hp with ⟨y, hy, rfl⟩
      exact hx (generate_file_pairs_mem_both hp').1

theorem generate_file_pairs_orientation {α : Type} {l : List α} (hl : l.Nodup)
    {x y : α} (hx : x ∈ l) (hy : y ∈ l) (hne : x ≠ y) :
    ((x, y) ∈ generate_file_pairs l ↔ (y, x) ∉ generate_file_pairs l) := by
  induction l with
  | nil => simp at hx
  | cons h t ih =>
    obtain ⟨hh, ht⟩ := List.nodup_cons.1 hl
    by_cases hxh : x = h
    · subst hxh
      have hy' : y ∈ t := by
        rcases List.mem_cons.1 hy with e | hy'
        · exact absurd e.symm hne
        · exact hy'
      refine ⟨fun _ hc => ?_, fun _ => mem_generate_file_pairs.2 (Or.inl ⟨rfl, hy'⟩)⟩
      rcases mem_generate_file_pairs.1 hc with ⟨e, _⟩ | hc'
      · exact hne e.symm
      · exact hh (generate_file_pairs_mem_both hc').2
    · by_cases hyh : y = h
      · subst hyh
        have hx' : x ∈ t := by
          rcases List.mem_cons.1 hx with e | hx'
          · exact absurd e hxh
          · exact hx'
        refine ⟨fun hc => ?_, fun hnc =>
          absurd (mem_generate_file_pairs.2 (Or.inl ⟨rfl, hx'⟩)) hnc⟩
        rcases mem_generate_file_pairs.1 hc with ⟨e, _⟩ | hc'
        · exact absurd e hxh
        · exact absurd (generate_file_pairs_mem_both hc').2 hh
      · have hx' : x ∈ t := by
          rcases List.mem_cons.1 hx with e | hx'
          · exact absurd e hxh
          · exact hx'
        have hy' : y ∈ t := by
          rcases List.mem_cons.1 hy with e | hy'
          · exact absurd e hyh
          · exact hy'
        have e1 : ((x, y) ∈ generate_file_pairs (h :: t)) ↔
            (x, y) ∈ generate_file_pairs t := by
          rw [mem_generate_file_pairs]
          simp [hxh]
        have e2 : ((y, x) ∈ generate_file_pairs (h :: t)) ↔
            (y, x) ∈ generate_file_pairs t := by
          rw [mem_generate_file_pairs]
          simp [hyh]
        rw [e1, e2]
        exact ih ht hx' hy'

/-- C1: for an n-element (duplicate-free) input list, the scoring engine
produces exactly n*(n-1)/2 results — one compare_pair result per
generated pair, in the deterministic itertools.combinations order — with
no self-pairs and no duplicate pairs, each unordered pair of distinct
inputs appearing in exactly one orientation; for n ≤ 1 the result is
empty (and nothing can fail). -/
theorem claim1_pairing (files : List SrcFile) (hnd : files.Nodup) :
    (run_parallel_comparison files).length = files.length * (files.length - 1) / 2 ∧
      run_parallel_comparison files =
        (generate_file_pairs files).map (fun p => compare_pair p.1 p.2) ∧
      (generate_file_pairs files).Nodup ∧
      (∀ p ∈ generate_file_pairs files, p.1 ≠ p.2 ∧ p.1 ∈ files ∧ p.2 ∈ files) ∧
      (∀ x y : SrcFile, x ∈ files → y ∈ files → x ≠ y →
        ((x, y) ∈ generate_file_pairs files ↔ (y, x) ∉ generate_file_pairs files)) ∧
      (files.length ≤ 1 → run_parallel_comparison files = []) := by
  have hlen : (run_parallel_comparison files).length = (generate_file_pairs files).length := by
    simp [run_parallel_comparison]
  refine ⟨?_, rfl, generate_file_pairs_nodup hnd,
    fun p hp => ⟨generate_file_pairs_ne hnd hp, (generate_file_pairs_mem_both hp).1,
      (generate_file_pairs_mem_both hp).2⟩,
    fun x y hx hy hne => generate_file_pairs_orientation hnd hx hy hne, ?_⟩
  · rw [hlen]
    have := generate_file_pairs_length files
    omega
  · intro h
    match files, h with
    | [], _ => rfl
    | [x], _ => rfl

/-- C1 witness: the properties evaluated on a concrete three-file list. -/
theorem claim1_pairing_witness :
    ([⟨"a.py", []⟩, ⟨"b.py", []⟩, ⟨"c.py", []⟩] : List SrcFile).Nodup ∧
      (run_parallel_comparison [⟨"a.py", []⟩, ⟨"b.py", []⟩, ⟨"c.py", []⟩]).length = 3 := by
  have hnd : ([⟨"a.py", []⟩, ⟨"b.py", []⟩, ⟨"c.py", []⟩] : List SrcFile).Nodup := by decide
  have h := claim1_pairing [⟨"a.py", []⟩, ⟨"b.py", []⟩, ⟨"c.py", []⟩] hnd
  exact ⟨hnd, by rw [h.1]; rfl⟩

/-! ### Invariants of find_longest_match -/

theorem getElem?_eq_some_getD (l : List Char) (i : Nat) (h : i < l.length) :
    l[i]? = some (l.getD i ' ') := by
  simp [List.getD_eq_getElem?_getD, List.getElem?_eq_getElem h]

theorem innerLoop_inv (a b : List Char) (prev : Nat → Nat) (alo ahi blo bhi i : Nat)
    (hialo : alo ≤ i) (hiahi : i < ahi) (hia : i < a.length)
    (hprev : j2lenOk a b alo blo i prev) :
    ∀ (js : List Nat) (news : Nat → Nat) (best : Match),
      (∀ j ∈ js, b[j]? = some (a.getD i ' ')) →
      j2lenOk a b alo blo (i + 1) news →
      bestOk a b alo ahi blo bhi best →
      j2lenOk a b alo blo (i + 1) (innerLoop prev blo bhi i js news best).1 ∧
        bestOk a b alo ahi blo bhi (innerLoop prev blo bhi i js news best).2 := by
  intro js
  induction js with
  | nil => intro news best _ hn hb; exact ⟨hn, hb⟩
  | cons j js ih =>
    intro news best hjs hn hb
    rw [innerLoop]
    by_cases h1 : j < blo
    · rw [if_pos h1]
      exact ih news best (fun j' hj' => hjs j' (List.mem_cons_of_mem _ hj')) hn hb
    · rw [if_neg h1]
      by_cases h2 : bhi ≤ j
      · rw [if_pos h2]
        exact ⟨hn, hb⟩
      · rw [if_neg h2]
        simp only
        obtain ⟨hp1, hp2, hp3⟩ := hprev
        obtain ⟨hn1, hn2, hn3⟩ := hn
        have hblo : blo ≤ j := le_of_not_lt h1
        have hbhi : j < bhi := lt_of_not_le h2
        set k := (if j = 0 then 0 else prev (j - 1)) + 1 with hkdef
        have hk1 : k ≤ i + 1 - alo := by
          rw [hkdef]
          split
          · omega
          · have := hp1 (j - 1)
            omega
        have hk2 : k ≤ j + 1 - blo := by
          rw [hkdef]
          split
          · omega
          · rcases Nat.eq_zero_or_pos (prev (j - 1)) with hz | hpos
            · omega
            · have := hp2 (j - 1) (by omega)
              omega
        have hkM : ∀ t, t < k → a[i - t]? = b[j - t]? := by
          intro t ht
          match t with
          | 0 =>
            simpa using (getElem?_eq_some_getD a i hia).trans (hjs j (List.mem_cons_self j js)).symm
          | t' + 1 =>
            rw [hkdef] at ht
            have hj0 : ¬ j = 0 := by by_contra h0; rw [if_pos h0] at ht; omega
            rw [if_neg hj0] at ht
            have hpne : prev (j - 1) ≠ 0 := by omega
            have := hp3 (j - 1) hpne t' (by omega)
            have e1 : i - (t' + 1) = i - 1 - t' := by omega
            have e2 : j - (t' + 1) = j - 1 - t' := by omega
            rw [e1, e2]
            exact this
        have hn' : j2lenOk a b alo blo (i + 1) (fun v => if v = j then k else news v) := by
          refine ⟨fun v => ?_, fun v hv => ?_, fun v hv t ht => ?_⟩
          · by_cases hvj : v = j
            · simp only [if_pos hvj]; omega
            · simp only [if_neg hvj]; exact hn1 v
          · by_cases hvj : v = j
            · subst hvj
              exact ⟨hblo, by simpa using hk2⟩
            · simp only [if_neg hvj] at hv ⊢
              exact hn2 v hv
          · by_cases hvj : v = j
            · subst hvj
              simp only [if_pos rfl] at ht
              have e : i + 1 - 1 = i := by omega
              rw [e]
              exact hkM t ht
            · simp only [if_neg hvj] at hv ht
              exact hn3 v hv t ht
        have hb' : bestOk a b alo ahi blo bhi
            (if best.size < k then (⟨i + 1 - k, j + 1 - k, k⟩ : Match) else best) := by
          by_cases hup : best.size < k
          · rw [if_pos hup]
            unfold bestOk
            refine ⟨?_, ?_, ?_, ?_, fun t ht => ?_⟩
            · show alo ≤ i + 1 - k
              omega
            · show i + 1 - k + k ≤ ahi
              omega
            · show blo ≤ j + 1 - k
              omega
            · show j + 1 - k + k ≤ bhi
              omega
            · have ht' : t < k := ht
              show a[i + 1 - k + t]? = b[j + 1 - k + t]?
              have e1 : i + 1 - k + t = i - (k - 1 - t) := by omega
              have e2 : j + 1 - k + t = j - (k - 1 - t) := by omega
              rw [e1, e2]
              exact hkM (k - 1 - t) (by omega)
          · rw [if_neg hup]
            exact hb
        exact ih _ _ (fun j' hj' => hjs j' (List.mem_cons_of_mem _ hj')) hn' hb'

theorem outerLoop_inv (a b : List Char) (bmap : Char → List Nat) (alo blo bhi ahi : Nat)
    (hchar : ∀ c j, j ∈ bmap c → b[j]? = some c) (hahi : ahi ≤ a.length) :
    ∀ (n s : Nat) (prev : Nat → Nat) (best : Match),
      alo ≤ s → s + n = ahi →
      j2lenOk a b alo blo s prev →
      bestOk a b alo ahi blo bhi best →
      bestOk a b alo ahi blo bhi (outerLoop a bmap blo bhi (natRange s n) prev best) := by
  intro n
  induction n with
  | zero => intro s prev best _ _ _ hb; exact hb
  | succ n ih =>
    intro s prev best hs hsum hprev hb
    rw [natRange, outerLoop]
    have hstep := innerLoop_inv a b prev alo ahi blo bhi s hs (by omega) (by omega) hprev
      (bmap (a.getD s ' ')) (fun _ => 0) best
      (fun j hj => hchar _ j hj)
      ⟨fun v => by show (0 : Nat) ≤ s + 1 - alo; omega,
        fun v hv => absurd rfl hv, fun v hv => absurd rfl hv⟩
      hb
    exact ih (s + 1) _ _ (by omega) (by omega) hstep.1 hstep.2

theorem extendBack_spec (a b : List Char) (alo blo : Nat) :
    ∀ (bi bj bs : Nat), alo ≤ bi → blo ≤ bj →
      (∀ t, t < bs → a[bi + t]? = b[bj + t]?) →
      alo ≤ (extendBack a b alo blo bi bj bs).a ∧
        blo ≤ (extendBack a b alo blo bi bj bs).b ∧
        (extendBack a b alo blo bi bj bs).a + (extendBack a b alo blo bi bj bs).size = bi + bs ∧
        (extendBack a b alo blo bi bj bs).b + (extendBack a b alo blo bi bj bs).size = bj + bs ∧
        ∀ t, t < (extendBack a b alo blo bi bj bs).size →
          a[(extendBack a b alo blo bi bj bs).a + t]? = b[(extendBack a b alo blo bi bj bs).b + t]? := by
  intro bi
  induction bi with
  | zero =>
    intro bj bs ha hb hm
    rw [extendBack]
    exact ⟨by omega, hb, rfl, rfl, hm⟩
  | succ bi ih =>
    intro bj bs ha hb hm
    rw [extendBack]
    split
    · rename_i hcond
      obtain ⟨hc1, hc2, hc3⟩ := hcond
      have hm' : ∀ t, t < bs + 1 → a[bi + t]? = b[bj - 1 + t]? := by
        intro t ht
        match t with
        | 0 => simpa using hc3
        | t' + 1 =>
          have e1 : bi + (t' + 1) = bi + 1 + t' := by omega
          have e2 : bj - 1 + (t' + 1) = bj + t' := by omega
          rw [e1, e2]
          exact hm t' (by omega)
      have := ih (bj - 1) (bs + 1) (by omega) (by omega) hm'
      refine ⟨this.1, this.2.1, by omega, by omega, this.2.2.2.2⟩
    · exact ⟨ha, hb, rfl, rfl, hm⟩

theorem extendFwdAux_spec (a b : List Char) (bhi bi bj : Nat) :
    ∀ (n bs : Nat),
      (∀ t, t < bs → a[bi + t]? = b[bj + t]?) →
      bj + bs ≤ bhi →
      bs ≤ extendFwdAux a b bhi bi bj n bs ∧
        extendFwdAux a b bhi bi bj n bs ≤ bs + n ∧
        bj + extendFwdAux a b bhi bi bj n bs ≤ bhi ∧
        ∀ t, t < extendFwdAux a b bhi bi bj n bs → a[bi + t]? = b[bj + t]? := by
  intro n
  induction n with
  | zero =>
    intro bs hm hb
    rw [extendFwdAux]
    exact ⟨le_refl _, by omega, hb, hm⟩
  | succ n ih =>
    intro bs hm hb
    rw [extendFwdAux]
    split
    · rename_i hcond
      have hm' : ∀ t, t < bs + 1 → a[bi + t]? = b[bj + t]? := by
        intro t ht
        rcases Nat.lt_or_ge t bs with h | h
        · exact hm t h
        · have : t = bs := by omega
          subst this
          exact hcond.2
      have := ih (bs + 1) hm' (by omega)
      exact ⟨by omega, by omega, this.2.2.1, this.2.2.2⟩
    · exact ⟨le_refl _, by omega, hb, hm⟩

/-- The block returned by find_longest_match lies inside the requested
region and is a genuine character-for-character match. -/
theorem find_longest_match_spec (a b : List Char) (bmap : Char → List Nat)
    (alo ahi blo bhi : Nat) (h1 : alo ≤ ahi) (h2 : blo ≤ bhi) (hahi : ahi ≤ a.length)
    (hchar : ∀ c j, j ∈ bmap c → b[j]? = some c) :
    bestOk a b alo ahi blo bhi (find_longest_match a b bmap alo ahi blo bhi) := by
  set best := outerLoop a bmap blo bhi (natRange alo (ahi - alo)) (fun _ => 0)
    (⟨alo, blo, 0⟩ : Match) with hbestdef
  set bk := extendBack a b alo blo best.a best.b best.size with hbkdef
  set fs := extendFwdAux a b bhi bk.a bk.b (ahi - (bk.a + bk.size)) bk.size with hfsdef
  have hloop : bestOk a b alo ahi blo bhi best := by
    rw [hbestdef]
    exact outerLoop_inv a b bmap alo blo bhi ahi hchar hahi (ahi - alo) alo
      (fun _ => 0) ⟨alo, blo, 0⟩ (le_refl _) (by omega)
      ⟨fun v => by show (0 : Nat) ≤ alo - alo; omega,
        fun v hv => absurd rfl hv, fun v hv => absurd rfl hv⟩
      ⟨le_refl _, by show alo + 0 ≤ ahi; omega, le_refl _, by show blo + 0 ≤ bhi; omega,
        fun t ht => absurd (show t < 0 from ht) (by omega)⟩
  obtain ⟨hb1, hb2, hb3, hb4, hb5⟩ := hloop
  have hback : alo ≤ bk.a ∧ blo ≤ bk.b ∧ bk.a + bk.size = best.a + best.size ∧
      bk.b + bk.size = best.b + best.size ∧
      ∀ t, t < bk.size → a[bk.a + t]? = b[bk.b + t]? := by
    rw [hbkdef]
    exact extendBack_spec a b alo blo best.a best.b best.size hb1 hb3 hb5
  obtain ⟨hk1, hk2, hk3, hk4, hk5⟩ := hback
  have hfwd : bk.size ≤ fs ∧ fs ≤ bk.size + (ahi - (bk.a + bk.size)) ∧ bk.b + fs ≤ bhi ∧
      ∀ t, t < fs → a[bk.a + t]? = b[bk.b + t]? := by
    rw [hfsdef]
    exact extendFwdAux_spec a b bhi bk.a bk.b (ahi - (bk.a + bk.size)) bk.size hk5 (by omega)
  obtain ⟨hf1, hf2, hf3, hf4⟩ := hfwd
  show bestOk a b alo ahi blo bhi ⟨bk.a, bk.b, fs⟩
  exact ⟨hk1, by show bk.a + fs ≤ ahi; omega, hk2, by show bk.b + fs ≤ bhi; omega, hf4⟩

/-! ### Invariants of the get_matching_blocks queue loop -/

theorem SepMM_symm {x y : Match} (h : SepMM x y) : SepMM y x := by
  unfold SepMM at *
  tauto

theorem sub_preserves_SepRR {r r1 r' : Region}
    (hsub : r.alo ≤ r1.alo ∧ r1.ahi ≤ r.ahi ∧ r.blo ≤ r1.blo ∧ r1.bhi ≤ r.bhi)
    (h : SepRR r r') : SepRR r1 r' := by
  unfold SepRR at *
  omega

theorem sub_preserves_SepMR {m : Match} {r r1 : Region}
    (hsub : r.alo ≤ r1.alo ∧ r1.ahi ≤ r.ahi ∧ r.blo ≤ r1.blo ∧ r1.bhi ≤ r.bhi)
    (h : SepMR m r) : SepMR m r1 := by
  unfold SepMR at *
  omega

theorem SepMM_of_inR {m' m : Match} {r : Region}
    (hin : r.alo ≤ m.a ∧ m.a + m.size ≤ r.ahi ∧ r.blo ≤ m.b ∧ m.b + m.size ≤ r.bhi)
    (h : SepMR m' r) : SepMM m' m := by
  unfold SepMR at h
  unfold SepMM
  omega

theorem SepMR_of_inR_SepRR {m : Match} {r r' : Region}
    (hin : r.alo ≤ m.a ∧ m.a + m.size ≤ r.ahi ∧ r.blo ≤ m.b ∧ m.b + m.size ≤ r.bhi)
    (h : SepRR r r') : SepMR m r' := by
  unfold SepRR at h
  unfold SepMR
  omega

theorem qMeasure_cons (r : Region) (q : List Region) :
    qMeasure (r :: q) = ((r.ahi - r.alo) + (r.bhi - r.blo) + 1) + qMeasure q := by
  simp [qMeasure]

/-- Master invariant of the queue loop: with enough fuel, the emitted
blocks are genuine in-bounds nonempty matches and are pairwise separated
(in both sequences consistently). -/
theorem processQueue_inv (a b : List Char) (bmap : Char → List Nat)
    (hchar : ∀ c j, j ∈ bmap c → b[j]? = some c) :
    ∀ (fuel : Nat) (queue : List Region) (acc : List Match),
      qMeasure queue ≤ fuel →
      (∀ r ∈ queue, GoodR a b r) →
      List.Pairwise SepRR queue →
      (∀ m ∈ acc, GoodM a b m) →
      List.Pairwise SepMM acc →
      (∀ m ∈ acc, ∀ r ∈ queue, SepMR m r) →
      (∀ m ∈ processQueue a b bmap fuel queue acc, GoodM a b m) ∧
        List.Pairwise SepMM (processQueue a b bmap fuel queue acc) := by
  intro fuel
  induction fuel with
  | zero =>
    intro queue acc hfuel hq hqq hacc haccp hmr
    cases queue with
    | nil => exact ⟨hacc, haccp⟩
    | cons r q =>
      rw [qMeasure_cons] at hfuel
      omega
  | succ fuel ih =>
    intro queue acc hfuel hq hqq hacc haccp hmr
    cases queue with
    | nil => exact ⟨hacc, haccp⟩
    | cons r q =>
      simp only [processQueue]
      set m := find_longest_match a b bmap r.alo r.ahi r.blo r.bhi with hmdef
      have hr : GoodR a b r := hq r (List.mem_cons_self r q)
      have hm : bestOk a b r.alo r.ahi r.blo r.bhi m := by
        rw [hmdef]
        exact find_longest_match_spec a b bmap r.alo r.ahi r.blo r.bhi
          hr.1 hr.2.1 hr.2.2.1 hchar
      obtain ⟨hm1, hm2, hm3, hm4, hm5⟩ := hm
      obtain ⟨hr1, hr2, hr3, hr4⟩ := hr
      rw [qMeasure_cons] at hfuel
      by_cases hsz : ¬ m.size = 0
      · rw [if_pos hsz]
        have hsz1 : 1 ≤ m.size := by omega
        have hgm : GoodM a b m := ⟨hsz1, by omega, by omega, hm5⟩
        have hin : r.alo ≤ m.a ∧ m.a + m.size ≤ r.ahi ∧ r.blo ≤ m.b ∧ m.b + m.size ≤ r.bhi :=
          ⟨hm1, hm2, hm3, hm4⟩
        have haccq : ∀ m' ∈ acc, ∀ r' ∈ q, SepMR m' r' :=
          fun m' hm' r' hr' => hmr m' hm' r' (List.mem_cons_of_mem _ hr')
        have hqgood : ∀ r' ∈ q, GoodR a b r' :=
          fun r' hr' => hq r' (List.mem_cons_of_mem _ hr')
        have hqsep : ∀ r' ∈ q, SepRR r r' := (List.pairwise_cons.1 hqq).1
        have hqq' : List.Pairwise SepRR q := (List.pairwise_cons.1 hqq).2
        -- the new accumulator
        have hacc' : ∀ m' ∈ m :: acc, GoodM a b m' := by
          intro m' hm'
          rcases List.mem_cons.1 hm' with rfl | hm'
          · exact hgm
          · exact hacc m' hm'
        have haccp' : List.Pairwise SepMM (m :: acc) := by
          rw [List.pairwise_cons]
          exact ⟨fun m' hm' => SepMM_symm (SepMM_of_inR hin (hmr m' hm' r (List.mem_cons_self r q))),
            haccp⟩
        have hmq : ∀ r' ∈ q, SepMR m r' :=
          fun r' hr' => SepMR_of_inR_SepRR hin (hqsep r' hr')
        -- generic recursion helper
        have hrec : ∀ q2 : List Region, qMeasure q2 ≤ fuel →
            (∀ r' ∈ q2, GoodR a b r') → List.Pairwise SepRR q2 →
            (∀ m' ∈ m :: acc, ∀ r' ∈ q2, SepMR m' r') →
            (∀ m' ∈ processQueue a b bmap fuel q2 (m :: acc), GoodM a b m') ∧
              List.Pairwise SepMM (processQueue a b bmap fuel q2 (m :: acc)) :=
          fun q2 h1 h2 h3 h4 => ih q2 (m :: acc) h1 h2 h3 hacc' haccp' h4
        set rL := Region.mk r.alo m.a r.blo m.b with hrL
        set rR := Region.mk (m.a + m.size) r.ahi (m.b + m.size) r.bhi with hrR
        have hsubL : r.alo ≤ rL.alo ∧ rL.ahi ≤ r.ahi ∧ r.blo ≤ rL.blo ∧ rL.bhi ≤ r.bhi :=
          ⟨le_refl _, by show m.a ≤ r.ahi; omega, le_refl _, by show m.b ≤ r.bhi; omega⟩
        have hsubR : r.alo ≤ rR.alo ∧ rR.ahi ≤ r.ahi ∧ r.blo ≤ rR.blo ∧ rR.bhi ≤ r.bhi :=
          ⟨by show r.alo ≤ m.a + m.size; omega, le_refl _,
            by show r.blo ≤ m.b + m.size; omega, le_refl _⟩
        have hgoodL : GoodR a b rL :=
          ⟨hm1, hm3, by show m.a ≤ a.length; omega, by show m.b ≤ b.length; omega⟩
        have hgoodR : GoodR a b rR := ⟨hm2, hm4, hr3, hr4⟩
        have hsepLR : SepRR rL rR := Or.inl ⟨by show m.a ≤ m.a + m.size; omega,
          by show m.b ≤ m.b + m.size; omega⟩
        have hmL : SepMR m rL := Or.inr ⟨le_refl _, le_refl _⟩
        have hmR : SepMR m rR := Or.inl ⟨le_refl _, le_refl _⟩
        by_cases hL : r.alo < m.a ∧ r.blo < m.b
        · rw [if_pos hL]
          by_cases hR : m.a + m.size < r.ahi ∧ m.b + m.size < r.bhi
          · rw [if_pos hR]
            refine hrec (rR :: rL :: q) ?_ ?_ ?_ ?_
            · rw [qMeasure_cons, qMeasure_cons]
              show r.ahi - (m.a + m.size) + (r.bhi - (m.b + m.size)) + 1 +
                (m.a - r.alo + (m.b - r.blo) + 1 + qMeasure q) ≤ fuel
              omega
            · intro r' hr'
              rcases List.mem_cons.1 hr' with rfl | hr'
              · exact hgoodR
              · rcases List.mem_cons.1 hr' with rfl | hr'
                · exact hgoodL
                · exact hqgood r' hr'
            · rw [List.pairwise_cons, List.pairwise_cons]
              refine ⟨?_, ?_, hqq'⟩
              · intro r' hr'
                rcases List.mem_cons.1 hr' with rfl | hr'
                · exact Or.inr ⟨by show m.a ≤ m.a + m.size; omega,
                    by show m.b ≤ m.b + m.size; omega⟩
                · exact sub_preserves_SepRR hsubR (hqsep r' hr')
              · intro r' hr'
                exact sub_preserves_SepRR hsubL (hqsep r' hr')
            · intro m' hm' r' hr'
              rcases List.mem_cons.1 hr' with rfl | hr'
              · rcases List.mem_cons.1 hm' with rfl | hm'
                · exact hmR
                · exact sub_preserves_SepMR hsubR (hmr m' hm' r (List.mem_cons_self r q))
              · rcases List.mem_cons.1 hr' with rfl | hr'
                · rcases List.mem_cons.1 hm' with rfl | hm'
                  · exact hmL
                  · exact sub_preserves_SepMR hsubL (hmr m' hm' r (List.mem_cons_self r q))
                · rcases List.mem_cons.1 hm' with rfl | hm'
                  · exact hmq r' hr'
                  · exact haccq m' hm' r' hr'
          · rw [if_neg hR]
            refine hrec (rL :: q) ?_ ?_ ?_ ?_
            · rw [qMeasure_cons]
              show m.a - r.alo + (m.b - r.blo) + 1 + qMeasure q ≤ fuel
              omega
            · intro r' hr'
              rcases List.mem_cons.1 hr' with rfl | hr'
              · exact hgoodL
              · exact hqgood r' hr'
            · rw [List.pairwise_cons]
              exact ⟨fun r' hr' => sub_preserves_SepRR hsubL (hqsep r' hr'), hqq'⟩
            · intro m' hm' r' hr'
              rcases List.mem_cons.1 hr' with rfl | hr'
              · rcases List.mem_cons.1 hm' with rfl | hm'
                · exact hmL
                · exact sub_preserves_SepMR hsubL (hmr m' hm' r (List.mem_cons_self r q))
              · rcases List.mem_cons.1 hm' with rfl | hm'
                · exact hmq r' hr'
                · exact haccq m' hm' r' hr'
        · rw [if_neg hL]
          by_cases hR : m.a + m.size < r.ahi ∧ m.b + m.size < r.bhi
          · rw [if_pos hR]
            refine hrec (rR :: q) ?_ ?_ ?_ ?_
            · rw [qMeasure_cons]
              show r.ahi - (m.a + m.size) + (r.bhi - (m.b + m.size)) + 1 + qMeasure q ≤ fuel
              omega
            · intro r' hr'
              rcases List.mem_cons.1 hr' with rfl | hr'
              · exact hgoodR
              · exact hqgood r' hr'
            · rw [List.pairwise_cons]
              exact ⟨fun r' hr' => sub_preserves_SepRR hsubR (hqsep r' hr'), hqq'⟩
            · intro m' hm' r' hr'
              rcases List.mem_cons.1 hr' with rfl | hr'
              · rcases List.mem_cons.1 hm' with rfl | hm'
                · exact hmR
                · exact sub_preserves_SepMR hsubR (hmr m' hm' r (List.mem_cons_self r q))
              · rcases List.mem_cons.1 hm' with rfl | hm'
                · exact hmq r' hr'
                · exact haccq m' hm' r' hr'
          · rw [if_neg hR]
            refine hrec q (by omega) hqgood hqq' ?_
            intro m' hm' r' hr'
            rcases List.mem_cons.1 hm' with rfl | hm'
            · exact hmq r' hr'
            · exact haccq m' hm' r' hr'
      · rw [if_neg hsz]
        exact ih q acc (by omega) (fun r' hr' => hq r' (List.mem_cons_of_mem _ hr'))
          (List.pairwise_cons.1 hqq).2 hacc haccp
          (fun m' hm' r' hr' => hmr m' hm' r' (List.mem_cons_of_mem _ hr'))

/-! ### From the sorted separated blocks to the chained block list -/

theorem blockLE_a_le {x y : Match} (h : blockLE x y) : x.a ≤ y.a := by
  unfold blockLE at h
  omega

/-- Lexicographically sorted, pairwise-separated, nonempty blocks are in
strictly increasing block order in both sequences. -/
theorem pairwise_strictSep_of_sorted {l : List Match}
    (hs : List.Sorted blockLE l) (hp : List.Pairwise SepMM l)
    (hsz : ∀ m ∈ l, 1 ≤ m.size) : List.Pairwise StrictSep l := by
  refine (List.Pairwise.and hs hp).imp_of_mem ?_
  intro x y hx hy hxy
  obtain ⟨hle, hsep⟩ := hxy
  rcases hsep with h | h
  · exact h
  · have h1 := hsz y hy
    have h2 := blockLE_a_le hle
    unfold StrictSep
    omega

/-- Invariant of the adjacent-collapse loop of get_matching_blocks. -/
theorem collapseAdjacent_spec (a b : List Char) :
    ∀ (ms : List Match) (i1 j1 k1 : Nat),
      (∀ m ∈ ms, GoodM a b m) →
      List.Pairwise StrictSep ms →
      (∀ m ∈ ms, i1 + k1 ≤ m.a ∧ j1 + k1 ≤ m.b) →
      i1 + k1 ≤ a.length → j1 + k1 ≤ b.length →
      (∀ t, t < k1 → a[i1 + t]? = b[j1 + t]?) →
      (∀ m ∈ collapseAdjacent i1 j1 k1 ms, GoodM a b m) ∧
        List.Pairwise StrictSep (collapseAdjacent i1 j1 k1 ms) ∧
        (∀ m ∈ collapseAdjacent i1 j1 k1 ms, i1 ≤ m.a ∧ j1 ≤ m.b) ∧
        ((collapseAdjacent i1 j1 k1 ms).map Match.size).sum = k1 + (ms.map Match.size).sum := by
  intro ms
  induction ms with
  | nil =>
    intro i1 j1 k1 _ _ _ hba hbb hmm
    rw [collapseAdjacent]
    by_cases hk : k1 ≠ 0
    · rw [if_pos hk]
      refine ⟨?_, ?_, ?_, ?_⟩
      · intro m hm
        rcases List.mem_singleton.1 hm with rfl
        exact ⟨by show 1 ≤ k1; omega, hba, hbb, hmm⟩
      · exact List.pairwise_singleton _ _
      · intro m hm
        rcases List.mem_singleton.1 hm with rfl
        exact ⟨by show i1 ≤ i1; omega, by show j1 ≤ j1; omega⟩
      · simp
    · rw [if_neg hk]
      push_neg at hk
      simp [hk]
  | cons m ms ih =>
    intro i1 j1 k1 hg hp hrel hba hbb hmm
    have hgm : GoodM a b m := hg m (List.mem_cons_self m ms)
    obtain ⟨hgm1, hgm2, hgm3, hgm4⟩ := hgm
    have hrelm := hrel m (List.mem_cons_self m ms)
    have hgtail : ∀ m' ∈ ms, GoodM a b m' := fun m' hm' => hg m' (List.mem_cons_of_mem _ hm')
    have hptail : List.Pairwise StrictSep ms := (List.pairwise_cons.1 hp).2
    have hphead : ∀ m' ∈ ms, StrictSep m m' := (List.pairwise_cons.1 hp).1
    rw [collapseAdjacent]
    by_cases hadj : i1 + k1 = m.a ∧ j1 + k1 = m.b
    · rw [if_pos hadj]
      have hmm' : ∀ t, t < k1 + m.size → a[i1 + t]? = b[j1 + t]? := by
        intro t ht
        rcases Nat.lt_or_ge t k1 with h | h
        · exact hmm t h
        · have e1 : i1 + t = m.a + (t - k1) := by omega
          have e2 : j1 + t = m.b + (t - k1) := by omega
          rw [e1, e2]
          exact hgm4 (t - k1) (by omega)
      have := ih i1 j1 (k1 + m.size) hgtail hptail
        (fun m' hm' => by
          have h1 := hphead m' hm'
          unfold StrictSep at h1
          omega)
        (by omega) (by omega) hmm'
      refine ⟨this.1, this.2.1, this.2.2.1, ?_⟩
      rw [this.2.2.2]
      simp only [List.map_cons, List.sum_cons]
      omega
    · rw [if_neg hadj]
      have hrec := ih m.a m.b m.size hgtail hptail
        (fun m' hm' => hphead m' hm')
        hgm2 hgm3 hgm4
      obtain ⟨hrg, hrp, hrl, hrs⟩ := hrec
      by_cases hk : k1 ≠ 0
      · rw [if_pos hk]
        refine ⟨?_, ?_, ?_, ?_⟩
        · intro m' hm'
          rcases List.mem_append.1 hm' with hm' | hm'
          · rcases List.mem_singleton.1 hm' with rfl
            exact ⟨by show 1 ≤ k1; omega, hba, hbb, hmm⟩
          · exact hrg m' hm'
        · rw [List.pairwise_append]
          refine ⟨List.pairwise_singleton _ _, hrp, ?_⟩
          intro x hx y hy
          rcases List.mem_singleton.1 hx with rfl
          have := hrl y hy
          exact ⟨by show i1 + k1 ≤ y.a; omega, by show j1 + k1 ≤ y.b; omega⟩
        · intro m' hm'
          rcases List.mem_append.1 hm' with hm' | hm'
          · rcases List.mem_singleton.1 hm' with rfl
            exact ⟨by show i1 ≤ i1; omega, by show j1 ≤ j1; omega⟩
          · have := hrl m' hm'
            exact ⟨by omega, by omega⟩
        · simp only [List.map_append, List.sum_append, List.map_cons, List.sum_cons]
          rw [hrs]
          simp
      · rw [if_neg hk]
        push_neg at hk
        simp only [List.nil_append]
        refine ⟨hrg, hrp, ?_, ?_⟩
        · intro m' hm'
          have := hrl m' hm'
          omega
        · rw [hrs]
          simp only [List.map_cons, List.sum_cons]
          omega

/-! ### The b2j index maps really index b -/

theorem mem_positionsAux {c : Char} :
    ∀ (l : List Char) (i j : Nat), j ∈ positionsAux c l i ↔ (i ≤ j ∧ l[j - i]? = some c) := by
  intro l
  induction l with
  | nil =>
    intro i j
    simp [positionsAux]
  | cons x xs ih =>
    intro i j
    rw [positionsAux]
    by_cases hx : x = c
    · rw [if_pos hx]
      subst hx
      constructor
      · intro h
        rcases List.mem_cons.1 h with hji | h
        · subst hji
          refine ⟨le_refl _, ?_⟩
          have e : j - j = 0 := by omega
          rw [e, List.getElem?_cons_zero]
        · have := (ih (i + 1) j).1 h
          refine ⟨by omega, ?_⟩
          have e : j - i = (j - (i + 1)) + 1 := by omega
          rw [e, List.getElem?_cons_succ]
          exact this.2
      · rintro ⟨hij, hget⟩
        by_cases hji : j = i
        · subst hji
          exact List.mem_cons_self _ _
        · refine List.mem_cons_of_mem _ ((ih (i + 1) j).2 ⟨by omega, ?_⟩)
          have e : j - i = (j - (i + 1)) + 1 := by omega
          rw [e, List.getElem?_cons_succ] at hget
          exact hget
    · rw [if_neg hx]
      rw [ih (i + 1) j]
      constructor
      · rintro ⟨hij, hget⟩
        refine ⟨by omega, ?_⟩
        have e : j - i = (j - (i + 1)) + 1 := by omega
        rw [e, List.getElem?_cons_succ]
        exact hget
      · rintro ⟨hij, hget⟩
        by_cases hji : j = i
        · subst hji
          have e : j - j = 0 := by omega
          rw [e, List.getElem?_cons_zero] at hget
          exact absurd (Option.some.inj hget) hx
        · refine ⟨by omega, ?_⟩
          have e : j - i = (j - (i + 1)) + 1 := by omega
          rw [e, List.getElem?_cons_succ] at hget
          exact hget

theorem mem_positionsOf {b : List Char} {c : Char} {j : Nat} :
    j ∈ positionsOf b c ↔ b[j]? = some c := by
  rw [positionsOf, mem_positionsAux]
  constructor
  · exact fun h => by simpa using h.2
  · exact fun h => ⟨Nat.zero_le _, by simpa using h⟩

theorem positionsOf_char (b : List Char) : ∀ c j, j ∈ positionsOf b c → b[j]? = some c :=
  fun _ _ h => mem_positionsOf.1 h

theorem b2j_char (b : List Char) : ∀ c j, j ∈ b2j b c → b[j]? = some c := by
  intro c j h
  rw [b2j] at h
  split at h
  · exact absurd h (List.not_mem_nil j)
  · exact mem_positionsOf.1 h

/-! ### The matching-block list of a pair: the C5 properties -/

theorem matchingBlocksWith_spec (a b : List Char) (bmap : Char → List Nat)
    (hchar : ∀ c j, j ∈ bmap c → b[j]? = some c) :
    (∀ m ∈ matchingBlocksWith a b bmap,
        m.a + m.size ≤ a.length ∧ m.b + m.size ≤ b.length ∧
          ∀ t, t < m.size → a[m.a + t]? = b[m.b + t]?) ∧
      (∀ m ∈ (matchingBlocksWith a b bmap).dropLast, 1 ≤ m.size) ∧
      List.Pairwise StrictSep (matchingBlocksWith a b bmap) ∧
      List.Pairwise (fun x y => x.a < y.a) (matchingBlocksWith a b bmap) := by
  have hraw := processQueue_inv a b bmap hchar (a.length + b.length + 1)
    [⟨0, a.length, 0, b.length⟩] []
    (by rw [qMeasure_cons]
        have h0 : qMeasure [] = 0 := rfl
        rw [h0]
        show a.length - 0 + (b.length - 0) + 1 + 0 ≤ a.length + b.length + 1
        omega)
    (by intro r hr
        rcases List.mem_singleton.1 hr with rfl
        exact ⟨Nat.zero_le _, Nat.zero_le _, le_refl _, le_refl _⟩)
    (List.pairwise_singleton _ _)
    (fun m hm => absurd hm (List.not_mem_nil m))
    List.Pairwise.nil
    (fun m hm => absurd hm (List.not_mem_nil m))
  set raw := processQueue a b bmap (a.length + b.length + 1)
    [⟨0, a.length, 0, b.length⟩] [] with hrawdef
  obtain ⟨hG, hP⟩ := hraw
  have hsorted : List.Sorted blockLE (List.insertionSort blockLE raw) :=
    List.sorted_insertionSort blockLE raw
  have hperm : (List.insertionSort blockLE raw).Perm raw := List.perm_insertionSort blockLE raw
  set srt := List.insertionSort blockLE raw with hsrtdef
  have hG' : ∀ m ∈ srt, GoodM a b m := fun m hm => hG m (hperm.mem_iff.1 hm)
  have hP' : List.Pairwise SepMM srt :=
    (hperm.pairwise_iff (fun {x y} h => SepMM_symm h)).2 hP
  have hsz : ∀ m ∈ srt, 1 ≤ m.size := fun m hm => (hG' m hm).1
  have hstrict := pairwise_strictSep_of_sorted hsorted hP' hsz
  have hcol := collapseAdjacent_spec a b srt 0 0 0 hG' hstrict
    (fun m _ => ⟨by omega, by omega⟩) (by omega) (by omega)
    (fun t ht => absurd ht (by omega))
  obtain ⟨hog, hop, hol, hos⟩ := hcol
  set out := collapseAdjacent 0 0 0 srt with houtdef
  have hL : matchingBlocksWith a b bmap = out ++ [⟨a.length, b.length, 0⟩] := rfl
  rw [hL]
  refine ⟨?_, ?_, ?_, ?_⟩
  · intro m hm
    rcases List.mem_append.1 hm with hm | hm
    · have := hog m hm
      exact ⟨this.2.1, this.2.2.1, this.2.2.2⟩
    · rcases List.mem_singleton.1 hm with rfl
      exact ⟨by show a.length + 0 ≤ a.length; omega, by show b.length + 0 ≤ b.length; omega,
        fun t ht => absurd (show t < 0 from ht) (by omega)⟩
  · rw [List.dropLast_concat]
    exact fun m hm => (hog m hm).1
  · rw [List.pairwise_append]
    refine ⟨hop, List.pairwise_singleton _ _, ?_⟩
    intro x hx y hy
    rcases List.mem_singleton.1 hy with rfl
    have := hog x hx
    exact ⟨by show x.a + x.size ≤ a.length; exact this.2.1,
      by show x.b + x.size ≤ b.length; exact this.2.2.1⟩
  · rw [List.pairwise_append]
    refine ⟨?_, List.pairwise_singleton _ _, ?_⟩
    · refine hop.imp_of_mem ?_
      intro x y hx hy hsep
      have h1 := (hog x hx).1
      unfold StrictSep at hsep
      omega
    · intro x hx y hy
      rcases List.mem_singleton.1 hy with rfl
      have h1 := (hog x hx).1
      have h2 := (hog x hx).2.1
      show x.a < a.length
      omega

/-- C5: for every pair, the matching-block triples reported by
compare_pair are sorted by strictly ascending offset in A, mutually
non-overlapping (consistently in both sequences), every block covers
only genuinely matching characters, all real blocks are nonempty and in
bounds, and the sum of the block lengths is exactly the M of the
reported ratio 2*M/T. -/
theorem claim5_blocks (a b : List Char) :
    List.Pairwise StrictSep (get_matching_blocks a b) ∧
      (∀ m ∈ (get_matching_blocks a b).dropLast, 1 ≤ m.size) ∧
      (∀ m ∈ get_matching_blocks a b,
        m.a + m.size ≤ a.length ∧ m.b + m.size ≤ b.length ∧
          ∀ t, t < m.size → a[m.a + t]? = b[m.b + t]?) ∧
      List.Pairwise (fun x y => x.a < y.a) (get_matching_blocks a b) ∧
      ratioOf a b =
        calculate_ratio (((get_matching_blocks a b).map Match.size).sum)
          (a.length + b.length) := by
  have h := matchingBlocksWith_spec a b (b2j b) (b2j_char b)
  exact ⟨h.2.2.1, h.2.1, h.1, h.2.2.2, rfl⟩

/-! ### C2: the score formula -/

theorem strictSep_sum_le_a (la : Nat) :
    ∀ (l : List Match) (lo : Nat),
      List.Pairwise StrictSep l →
      (∀ m ∈ l, m.a + m.size ≤ la) →
      (∀ m ∈ l, lo ≤ m.a) →
      lo + (l.map Match.size).sum ≤ max la lo := by
  intro l
  induction l with
  | nil =>
    intro lo _ _ _
    simpa using Nat.le_max_right la lo
  | cons m ms ih =>
    intro lo hp hb hlo
    have hpm : ∀ m' ∈ ms, StrictSep m m' := (List.pairwise_cons.1 hp).1
    have h1 := ih (m.a + m.size) (List.pairwise_cons.1 hp).2
      (fun m' hm' => hb m' (List.mem_cons_of_mem _ hm'))
      (fun m' hm' => (hpm m' hm').1)
    have h2 : max la (m.a + m.size) = la :=
      Nat.max_eq_left (hb m (List.mem_cons_self m ms))
    have h3 : la ≤ max la lo := Nat.le_max_left la lo
    have h4 := hlo m (List.mem_cons_self m ms)
    simp only [List.map_cons, List.sum_cons]
    omega

theorem strictSep_sum_le_b (lb : Nat) :
    ∀ (l : List Match) (lo : Nat),
      List.Pairwise StrictSep l →
      (∀ m ∈ l, m.b + m.size ≤ lb) →
      (∀ m ∈ l, lo ≤ m.b) →
      lo + (l.map Match.size).sum ≤ max lb lo := by
  intro l
  induction l with
  | nil =>
    intro lo _ _ _
    simpa using Nat.le_max_right lb lo
  | cons m ms ih =>
    intro lo hp hb hlo
    have hpm : ∀ m' ∈ ms, StrictSep m m' := (List.pairwise_cons.1 hp).1
    have h1 := ih (m.b + m.size) (List.pairwise_cons.1 hp).2
      (fun m' hm' => hb m' (List.mem_cons_of_mem _ hm'))
      (fun m' hm' => (hpm m' hm').2)
    have h2 : max lb (m.b + m.size) = lb :=
      Nat.max_eq_left (hb m (List.mem_cons_self m ms))
    have h3 : lb ≤ max lb lo := Nat.le_max_left lb lo
    have h4 := hlo m (List.mem_cons_self m ms)
    simp only [List.map_cons, List.sum_cons]
    omega

/-- The total matched length never exceeds either sequence length. -/
theorem matchesTotal_le (a b : List Char) :
    matchesTotal a b ≤ a.length ∧ matchesTotal a b ≤ b.length := by
  have h := matchingBlocksWith_spec a b (b2j b) (b2j_char b)
  constructor
  · have := strictSep_sum_le_a a.length (get_matching_blocks a b) 0 h.2.2.1
      (fun m hm => (h.1 m hm).1) (fun m _ => Nat.zero_le _)
    simpa [matchesTotal] using this
  · have := strictSep_sum_le_b b.length (get_matching_blocks a b) 0 h.2.2.1
      (fun m hm => (h.1 m hm).2.1) (fun m _ => Nat.zero_le _)
    simpa [matchesTotal] using this

theorem roundHalfEven_le_add_half (q : ℚ) : (roundHalfEven q : ℚ) ≤ q + 1 / 2 := by
  have h1 := Int.floor_le q
  have h2 := Int.lt_floor_add_one q
  simp only [roundHalfEven]
  split_ifs <;> push_cast <;> linarith

theorem sub_half_le_roundHalfEven (q : ℚ) : q - 1 / 2 ≤ (roundHalfEven q : ℚ) := by
  have h1 := Int.floor_le q
  have h2 := Int.lt_floor_add_one q
  simp only [roundHalfEven]
  split_ifs <;> push_cast <;> linarith

theorem pyRound2_bounds (q : ℚ) (h0 : 0 ≤ q) (h1 : q ≤ 100) :
    0 ≤ pyRound2 q ∧ pyRound2 q ≤ 100 := by
  have hlo := sub_half_le_roundHalfEven (q * 100)
  have hhi := roundHalfEven_le_add_half (q * 100)
  have hz : (0 : ℤ) ≤ roundHalfEven (q * 100) := by
    have h : (-1 : ℚ) < (roundHalfEven (q * 100) : ℚ) := by linarith
    have h' : (-1 : ℤ) < roundHalfEven (q * 100) := by exact_mod_cast h
    omega
  have hm : roundHalfEven (q * 100) ≤ 10000 := by
    have h : (roundHalfEven (q * 100) : ℚ) < 10001 := by linarith
    have h' : roundHalfEven (q * 100) < 10001 := by exact_mod_cast h
    omega
  have hzq : (0 : ℚ) ≤ (roundHalfEven (q * 100) : ℚ) := by exact_mod_cast hz
  have hmq : (roundHalfEven (q * 100) : ℚ) ≤ 10000 := by exact_mod_cast hm
  constructor
  · rw [pyRound2]
    positivity
  · rw [pyRound2]
    rw [div_le_iff (by norm_num : (0 : ℚ) < 100)]
    linarith

/-- When the second sequence is below the autojunk threshold, the
popular-element purge is inert and compare_pair's matching is exactly the
junk-free matching of the spec. -/
theorem b2j_eq_positionsOf {b : List Char} (hb : b.length < 200) :
    b2j b = positionsOf b := by
  funext c
  rw [b2j, if_neg]
  have h : ¬ 200 ≤ b.length := by omega
  simp [isPopular, h]

/-- C2 amended: for every pair whose second sequence is shorter than 200
characters (below difflib's autojunk threshold), the similarity score is
the junk-free ratio 2*M/T expressed as a percentage rounded
(half-to-even) to two decimals; the score always lies in [0, 100], and a
pair of empty sequences scores exactly 100 (ratio defined as 1). -/
theorem claim2_score_formula (a b : List Char) (hb : b.length < 200) :
    pairScore a b = pyRound2 (100 * specRatio a b) ∧
      0 ≤ pairScore a b ∧ pairScore a b ≤ 100 ∧
      (a.length + b.length = 0 → pairScore a b = 100) := by
  have hblocks : get_matching_blocks a b = specMatchingBlocks a b := by
    rw [get_matching_blocks, specMatchingBlocks, b2j_eq_positionsOf hb]
  have hratio : ratioOf a b = specRatio a b := by
    rw [ratioOf, specRatio, matchesTotal, specMatchesTotal, hblocks]
  have hform : pairScore a b = pyRound2 (100 * specRatio a b) := by
    rw [pairScore, hratio, mul_comm]
  have hM := matchesTotal_le a b
  have hscore_eq : pairScore a b = pyRound2 (ratioOf a b * 100) := rfl
  have hr0 : 0 ≤ ratioOf a b ∧ ratioOf a b ≤ 1 := by
    rw [ratioOf, calculate_ratio]
    by_cases hT : a.length + b.length = 0
    · rw [if_neg (by omega)]
      norm_num
    · rw [if_pos hT]
      have hTpos : (0 : ℚ) < ((a.length + b.length : Nat) : ℚ) := by
        exact_mod_cast Nat.pos_of_ne_zero hT
      constructor
      · positivity
      · rw [div_le_one hTpos]
        have h2M : 2 * matchesTotal a b ≤ a.length + b.length := by omega
        exact_mod_cast h2M
  have hbounds : 0 ≤ pairScore a b ∧ pairScore a b ≤ 100 := by
    rw [hscore_eq]
    exact pyRound2_bounds _ (by nlinarith [hr0.1]) (by nlinarith [hr0.1, hr0.2])
  refine ⟨hform, hbounds.1, hbounds.2, ?_⟩
  intro hT
  rw [hscore_eq, ratioOf, calculate_ratio, if_neg (by omega)]
  norm_num [pyRound2, roundHalfEven]

/-- C2 witness: the amended statement applied to the concrete pair
(ab, ab). -/
theorem claim2_score_formula_witness :
    (("ab").toList : List Char).length < 200 ∧
      pairScore ("ab").toList ("ab").toList = pyRound2 (100 * specRatio ("ab").toList ("ab").toList) ∧
      0 ≤ pairScore ("ab").toList ("ab").toList ∧
      pairScore ("ab").toList ("ab").toList ≤ 100 :=
  ⟨by decide, (claim2_score_formula ("ab").toList ("ab").toList (by decide)).1,
    (claim2_score_formula ("ab").toList ("ab").toList (by decide)).2.1,
    (claim2_score_formula ("ab").toList ("ab").toList (by decide)).2.2.1⟩

set_option maxRecDepth 8000 in
/-- C2 counterexample: with the 5-character first file zxxxx and a
200-character second file beginning yxxxx (in which x occurs four times,
more than 200/100 + 1 = 3, so autojunk filters it), compare_pair scores
0.0, while the junk-free formula of the claim gives 3.9 — the common
substring xxxx is not seeded because its character is "popular". -/
theorem claim2_counterexample :
    ¬ (pairScore ("zxxxx").toList
        ("yxxxxABCDEFGHIJKLMNOPQRSTUVWXYZabcdefghijklmnopqrstuvw0123456789!@$%&?ABCDEFGHIJKLMNOPQRSTUVWXYZabcdefghijklmnopqrstuvw0123456789!@$%&?ABCDEFGHIJKLMNOPQRSTUVWXYZabcdefghijklmnopqrstuvw0123456789!@$%&?").toList =
      pyRound2 (100 * specRatio ("zxxxx").toList
        ("yxxxxABCDEFGHIJKLMNOPQRSTUVWXYZabcdefghijklmnopqrstuvw0123456789!@$%&?ABCDEFGHIJKLMNOPQRSTUVWXYZabcdefghijklmnopqrstuvw0123456789!@$%&?ABCDEFGHIJKLMNOPQRSTUVWXYZabcdefghijklmnopqrstuvw0123456789!@$%&?").toList)) := by
  intro h
  have h1 : matchesTotal ("zxxxx").toList
      ("yxxxxABCDEFGHIJKLMNOPQRSTUVWXYZabcdefghijklmnopqrstuvw0123456789!@$%&?ABCDEFGHIJKLMNOPQRSTUVWXYZabcdefghijklmnopqrstuvw0123456789!@$%&?ABCDEFGHIJKLMNOPQRSTUVWXYZabcdefghijklmnopqrstuvw0123456789!@$%&?").toList = 0 := by
    decide
  have h2 : specMatchesTotal ("zxxxx").toList
      ("yxxxxABCDEFGHIJKLMNOPQRSTUVWXYZabcdefghijklmnopqrstuvw0123456789!@$%&?ABCDEFGHIJKLMNOPQRSTUVWXYZabcdefghijklmnopqrstuvw0123456789!@$%&?ABCDEFGHIJKLMNOPQRSTUVWXYZabcdefghijklmnopqrstuvw0123456789!@$%&?").toList = 4 := by
    decide
  rw [pairScore, ratioOf, h1] at h
  rw [specRatio, h2] at h
  norm_num [calculate_ratio, pyRound2, roundHalfEven] at h

/-! ### C3: self-comparison scores 100.

For a = b = s on a symmetric window, the j2len entry at a diagonal
position j is exactly `dRun s alo j`, every off-diagonal entry is
dominated by the diagonal one (its characters are the same characters),
and within one outer iteration the diagonal position is scanned before
any larger j.  Hence the running best block always sits on the diagonal,
and the two extension loops then stretch any diagonal best to the whole
window. -/

theorem positionsAux_sorted (c : Char) :
    ∀ (l : List Char) (i : Nat),
      List.Pairwise (fun x y => x < y) (positionsAux c l i) ∧
        (∀ j ∈ positionsAux c l i, i ≤ j) := by
  intro l
  induction l with
  | nil => intro i; simp [positionsAux]
  | cons x xs ih =>
    intro i
    rw [positionsAux]
    by_cases hx : x = c
    · rw [if_pos hx]
      refine ⟨List.pairwise_cons.2 ⟨fun j hj => by have := (ih (i + 1)).2 j hj; omega,
        (ih (i + 1)).1⟩, ?_⟩
      intro j hj
      rcases List.mem_cons.1 hj with rfl | hj
      · exact le_refl _
      · have := (ih (i + 1)).2 j hj
        omega
    · rw [if_neg hx]
      refine ⟨(ih (i + 1)).1, fun j hj => ?_⟩
      have := (ih (i + 1)).2 j hj
      omega

theorem dRun_succ_of (s : List Char) (alo i : Nat) (hi : alo ≤ i)
    (hnp : isPopular s (s.getD i ' ') = false) :
    dRun s alo i = (if i = 0 then 0 else dRun s alo (i - 1)) + 1 := by
  cases i with
  | zero =>
    have h : ¬ (0 < alo ∨ isPopular s (s.getD 0 ' ') = true) := by
      simp only [hnp, Bool.false_eq_true, or_false]
      omega
    rw [dRun, if_neg (by simpa using h)]
    simp
  | succ j =>
    have h : ¬ (j + 1 < alo ∨ isPopular s (s.getD (j + 1) ' ') = true) := by
      simp only [hnp, Bool.false_eq_true, or_false]
      omega
    rw [dRun, if_neg (by simpa using h)]
    simp

theorem dRun_zero_of_pop (s : List Char) (alo i : Nat)
    (hp : isPopular s (s.getD i ' ') = true) : dRun s alo i = 0 := by
  cases i with
  | zero => rw [dRun, if_pos (Or.inr hp)]
  | succ j => rw [dRun, if_pos (Or.inr hp)]

theorem dRun_zero_of_lt (s : List Char) (alo i : Nat) (h : i < alo) :
    dRun s alo i = 0 := by
  cases i with
  | zero => rw [dRun, if_pos (Or.inl h)]
  | succ j => rw [dRun, if_pos (Or.inl h)]

theorem innerLoop_diag (s : List Char) (alo ahi i : Nat)
    (hii : alo ≤ i) (hia : i < ahi) (hlen : i < s.length)
    (hnp : isPopular s (s.getD i ' ') = false)
    (prev : Nat → Nat)
    (HP1 : ∀ v, prev v ≤ dRun s alo v)
    (HP2 : ∀ v, prev v ≤ (if i = 0 then 0 else dRun s alo (i - 1)))
    (HP3 : i ≠ 0 → prev (i - 1) = dRun s alo (i - 1)) :
    ∀ (js : List Nat) (news : Nat → Nat) (best : Match),
      (∀ j ∈ js, s[j]? = some (s.getD i ' ')) →
      List.Pairwise (fun x y => x < y) js →
      best.a = best.b →
      (∀ j', j' < i → dRun s alo j' ≤ best.size) →
      (i ∈ js ∨ (dRun s alo i ≤ best.size ∧ news i = dRun s alo i)) →
      (∀ v, news v ≤ dRun s alo v) →
      (∀ v, news v ≤ dRun s alo i) →
      ((innerLoop prev alo ahi i js news best).2.a =
          (innerLoop prev alo ahi i js news best).2.b) ∧
        (∀ j', j' ≤ i → dRun s alo j' ≤ (innerLoop prev alo ahi i js news best).2.size) ∧
        (∀ v, (innerLoop prev alo ahi i js news best).1 v ≤ dRun s alo v) ∧
        (∀ v, (innerLoop prev alo ahi i js news best).1 v ≤ dRun s alo i) ∧
        (innerLoop prev alo ahi i js news best).1 i = dRun s alo i := by
  have hDi : dRun s alo i = (if i = 0 then 0 else dRun s alo (i - 1)) + 1 :=
    dRun_succ_of s alo i hii hnp
  intro js
  induction js with
  | nil =>
    intro news best _ _ I1 I2 I3 N1 N2
    rcases I3 with h | ⟨h3a, h3b⟩
    · exact absurd h (List.not_mem_nil i)
    · rw [innerLoop]
      refine ⟨I1, fun j' hj' => ?_, N1, N2, h3b⟩
      rcases Nat.lt_or_ge j' i with h | h
      · exact I2 j' h
      · have : j' = i := by omega
        subst this
        exact h3a
  | cons j js ih =>
    intro news best hchar hsort I1 I2 I3 N1 N2
    have hsort_head : ∀ x ∈ js, j < x := (List.pairwise_cons.1 hsort).1
    have hsort_tail := (List.pairwise_cons.1 hsort).2
    have hchar_tail : ∀ x ∈ js, s[x]? = some (s.getD i ' ') :=
      fun x hx => hchar x (List.mem_cons_of_mem _ hx)
    rw [innerLoop]
    by_cases h1 : j < alo
    · rw [if_pos h1]
      refine ih news best hchar_tail hsort_tail I1 I2 ?_ N1 N2
      rcases I3 with h | h
      · rcases List.mem_cons.1 h with heq | h
        · exact absurd hii (by omega)
        · exact Or.inl h
      · exact Or.inr h
    · rw [if_neg h1]
      by_cases h2 : ahi ≤ j
      · rw [if_pos h2]
        have I3' : dRun s alo i ≤ best.size ∧ news i = dRun s alo i := by
          rcases I3 with h | h
          · rcases List.mem_cons.1 h with heq | h
            · exact absurd hia (by omega)
            · exact absurd (hsort_head i h) (by omega)
          · exact h
        refine ⟨I1, fun j' hj' => ?_, N1, N2, I3'.2⟩
        rcases Nat.lt_or_ge j' i with h | h
        · exact I2 j' h
        · have : j' = i := by omega
          subst this
          exact I3'.1
      · rw [if_neg h2]
        simp only
        have hjalo : alo ≤ j := by omega
        have hcj : s[j]? = some (s.getD i ' ') := hchar j (List.mem_cons_self j js)
        have hgdj : s.getD j ' ' = s.getD i ' ' := by
          rw [List.getD_eq_getElem?_getD, hcj]
          rfl
        have hnpj : isPopular s (s.getD j ' ') = false := by
          rw [hgdj]
          exact hnp
        have hDj : dRun s alo j = (if j = 0 then 0 else dRun s alo (j - 1)) + 1 :=
          dRun_succ_of s alo j hjalo hnpj
        set k := (if j = 0 then 0 else prev (j - 1)) + 1 with hkdef
        have hkDj : k ≤ dRun s alo j := by
          rw [hkdef, hDj]
          by_cases hj0 : j = 0
          · simp [hj0]
          · simp only [if_neg hj0]
            have := HP1 (j - 1)
            omega
        have hkDi : k ≤ dRun s alo i := by
          rw [hkdef, hDi]
          by_cases hj0 : j = 0
          · simp [hj0]
          · simp only [if_neg hj0]
            have := HP2 (j - 1)
            omega
        rcases Nat.lt_trichotomy j i with hji | hji | hji
        · -- j < i : dominated by the diagonal entry already in best
          have hnud : ¬ best.size < k := by
            have := I2 j hji
            omega
          rw [if_neg hnud]
          refine ih _ _ hchar_tail hsort_tail I1 I2 ?_ ?_ ?_
          · rcases I3 with h | h
            · rcases List.mem_cons.1 h with heq | h
              · exact absurd hji (by omega)
              · exact Or.inl h
            · refine Or.inr ⟨h.1, ?_⟩
              rw [if_neg (show ¬ i = j by omega)]
              exact h.2
          · intro v
            by_cases hv : v = j
            · simp only [if_pos hv]
              subst hv
              exact hkDj
            · simp only [if_neg hv]
              exact N1 v
          · intro v
            by_cases hv : v = j
            · simp only [if_pos hv]
              exact hkDi
            · simp only [if_neg hv]
              exact N2 v
        · -- j = i : the diagonal entry; k is exactly dRun i
          have hk_eq : k = dRun s alo i := by
            rw [hkdef, hDi, hji]
            by_cases hi0 : i = 0
            · simp [hi0]
            · simp only [if_neg hi0]
              rw [HP3 hi0]
          have hN1' : ∀ v, (fun v => if v = j then k else news v) v ≤ dRun s alo v := by
            intro v
            by_cases hv : v = j
            · simp only [if_pos hv]
              subst hv
              exact hkDj
            · simp only [if_neg hv]
              exact N1 v
          have hN2' : ∀ v, (fun v => if v = j then k else news v) v ≤ dRun s alo i := by
            intro v
            by_cases hv : v = j
            · simp only [if_pos hv]
              exact hkDi
            · simp only [if_neg hv]
              exact N2 v
          have hnews_i : (fun v => if v = j then k else news v) i = dRun s alo i := by
            simp only [if_pos hji.symm]
            exact hk_eq
          by_cases hup : best.size < k
          · rw [if_pos hup]
            refine ih _ _ hchar_tail hsort_tail ?_ ?_ ?_ hN1' hN2'
            · show i + 1 - k = j + 1 - k
              rw [hji]
            · intro j' hj'
              have := I2 j' hj'
              show dRun s alo j' ≤ k
              omega
            · refine Or.inr ⟨?_, hnews_i⟩
              show dRun s alo i ≤ k
              omega
          · rw [if_neg hup]
            refine ih _ _ hchar_tail hsort_tail I1 I2 ?_ hN1' hN2'
            refine Or.inr ⟨?_, hnews_i⟩
            omega
        · -- i < j : best already dominates (the diagonal was processed)
          have I3' : dRun s alo i ≤ best.size ∧ news i = dRun s alo i := by
            rcases I3 with h | h
            · rcases List.mem_cons.1 h with heq | h
              · exact absurd hji (by omega)
              · exact absurd (hsort_head i h) (by omega)
            · exact h
          have hnud : ¬ best.size < k := by
            have := I3'.1
            omega
          rw [if_neg hnud]
          refine ih _ _ hchar_tail hsort_tail I1 I2 ?_ ?_ ?_
          · refine Or.inr ⟨I3'.1, ?_⟩
            rw [if_neg (show ¬ i = j by omega)]
            exact I3'.2
          · intro v
            by_cases hv : v = j
            · simp only [if_pos hv]
              subst hv
              exact hkDj
            · simp only [if_neg hv]
              exact N1 v
          · intro v
            by_cases hv : v = j
            · simp only [if_pos hv]
              exact hkDi
            · simp only [if_neg hv]
              exact N2 v

theorem outerLoop_diag (s : List Char) (alo ahi : Nat) (hahi : ahi ≤ s.length) :
    ∀ (n s0 : Nat) (prev : Nat → Nat) (best : Match),
      alo ≤ s0 → s0 + n = ahi →
      (∀ v, prev v ≤ dRun s alo v) →
      (∀ v, prev v ≤ (if s0 = 0 then 0 else dRun s alo (s0 - 1))) →
      (s0 ≠ 0 → prev (s0 - 1) = dRun s alo (s0 - 1)) →
      best.a = best.b →
      (∀ j', j' < s0 → dRun s alo j' ≤ best.size) →
      (outerLoop s (b2j s) alo ahi (natRange s0 n) prev best).a =
        (outerLoop s (b2j s) alo ahi (natRange s0 n) prev best).b := by
  intro n
  induction n with
  | zero =>
    intro s0 prev best _ _ _ _ _ I1 _
    rw [natRange, outerLoop]
    exact I1
  | succ n ih =>
    intro s0 prev best hs0 hsum HP1 HP2 HP3 I1 I2
    rw [natRange, outerLoop]
    by_cases hpop : isPopular s (s.getD s0 ' ') = true
    · have hb2j : b2j s (s.getD s0 ' ') = [] := by
        rw [b2j, if_pos hpop]
      rw [hb2j]
      rw [innerLoop]
      refine ih (s0 + 1) _ _ (by omega) (by omega) ?_ ?_ ?_ I1 ?_
      · intro v
        exact Nat.zero_le _
      · intro v
        exact Nat.zero_le _
      · intro _
        simp only [Nat.add_sub_cancel]
        rw [dRun_zero_of_pop s alo s0 hpop]
      · intro j' hj'
        rcases Nat.lt_or_ge j' s0 with h | h
        · exact I2 j' h
        · have : j' = s0 := by omega
          subst this
          rw [dRun_zero_of_pop s alo j' hpop]
          omega
    · have hnp : isPopular s (s.getD s0 ' ') = false := by
        simpa using hpop
      have hb2j : b2j s (s.getD s0 ' ') = positionsOf s (s.getD s0 ' ') := by
        rw [b2j, if_neg (by rw [hnp]; simp)]
      have hlen : s0 < s.length := by omega
      have hself : s0 ∈ positionsOf s (s.getD s0 ' ') :=
        mem_positionsOf.2 (getElem?_eq_some_getD s s0 hlen)
      have hstep := innerLoop_diag s alo ahi s0 hs0 (by omega) hlen hnp prev HP1 HP2 HP3
        (positionsOf s (s.getD s0 ' ')) (fun _ => 0) best
        (fun j hj => mem_positionsOf.1 hj)
        (positionsAux_sorted (s.getD s0 ' ') s 0).1
        I1 I2 (Or.inl hself) (fun v => Nat.zero_le _) (fun v => Nat.zero_le _)
      rw [hb2j]
      refine ih (s0 + 1) _ _ (by omega) (by omega) hstep.2.2.1 ?_ ?_ hstep.1 ?_
      · intro v
        simp only [Nat.succ_ne_zero, if_neg, Nat.add_sub_cancel]
        exact hstep.2.2.2.1 v
      · intro _
        simp only [Nat.add_sub_cancel]
        exact hstep.2.2.2.2
      · intro j' hj'
        exact hstep.2.1 j' (by omega)

theorem extendBack_diag (s : List Char) (alo : Nat) :
    ∀ (bi bs : Nat), alo ≤ bi →
      extendBack s s alo alo bi bi bs = ⟨alo, alo, bs + (bi - alo)⟩ := by
  intro bi
  induction bi with
  | zero =>
    intro bs h
    have h0 : alo = 0 := by omega
    subst h0
    rw [extendBack]
    simp
  | succ bi ih =>
    intro bs h
    rw [extendBack]
    by_cases halo : alo < bi + 1
    · rw [if_pos ⟨halo, halo, by simp⟩]
      have e : bi + 1 - 1 = bi := by omega
      rw [e, ih (bs + 1) (by omega)]
      have e2 : bs + 1 + (bi - alo) = bs + (bi + 1 - alo) := by omega
      rw [e2]
    · have he : alo = bi + 1 := by omega
      rw [if_neg (by intro hc; exact halo hc.1)]
      subst he
      simp

theorem extendFwdAux_diag (s : List Char) (bhi bi : Nat) :
    ∀ (n bs : Nat), extendFwdAux s s bhi bi bi n bs = bs + min n (bhi - (bi + bs)) := by
  intro n
  induction n with
  | zero =>
    intro bs
    rw [extendFwdAux]
    simp
  | succ n ih =>
    intro bs
    rw [extendFwdAux]
    by_cases hlt : bi + bs < bhi
    · rw [if_pos ⟨hlt, rfl⟩, ih (bs + 1)]
      omega
    · rw [if_neg (by intro hc; exact hlt hc.1)]
      omega

/-- On a symmetric window of a self-comparison, find_longest_match
returns the whole window. -/
theorem find_longest_match_diag (s : List Char) (alo ahi : Nat)
    (h1 : alo ≤ ahi) (hahi : ahi ≤ s.length) :
    find_longest_match s s (b2j s) alo ahi alo ahi = ⟨alo, alo, ahi - alo⟩ := by
  set best := outerLoop s (b2j s) alo ahi (natRange alo (ahi - alo)) (fun _ => 0)
    (⟨alo, alo, 0⟩ : Match) with hbestdef
  have hdiag : best.a = best.b := by
    rw [hbestdef]
    refine outerLoop_diag s alo ahi hahi (ahi - alo) alo (fun _ => 0) ⟨alo, alo, 0⟩
      (le_refl _) (by omega) (fun v => Nat.zero_le _) (fun v => Nat.zero_le _) ?_ rfl ?_
    · intro hne
      rw [dRun_zero_of_lt s alo (alo - 1) (by omega)]
    · intro j' hj'
      rw [dRun_zero_of_lt s alo j' hj']
  have hloop : bestOk s s alo ahi alo ahi best := by
    rw [hbestdef]
    exact outerLoop_inv s s (b2j s) alo alo ahi ahi (b2j_char s) hahi (ahi - alo) alo
      (fun _ => 0) ⟨alo, alo, 0⟩ (le_refl _) (by omega)
      ⟨fun v => by show (0 : Nat) ≤ alo - alo; omega,
        fun v hv => absurd rfl hv, fun v hv => absurd rfl hv⟩
      ⟨le_refl _, by show alo + 0 ≤ ahi; omega, le_refl _, by show alo + 0 ≤ ahi; omega,
        fun t ht => absurd (show t < 0 from ht) (by omega)⟩
  obtain ⟨hb1, hb2, hb3, hb4, hb5⟩ := hloop
  show (⟨(extendBack s s alo alo best.a best.b best.size).a,
    (extendBack s s alo alo best.a best.b best.size).b,
    extendFwd s s ahi ahi (extendBack s s alo alo best.a best.b best.size).a
      (extendBack s s alo alo best.a best.b best.size).b
      (extendBack s s alo alo best.a best.b best.size).size⟩ : Match) =
    ⟨alo, alo, ahi - alo⟩
  have hback : extendBack s s alo alo best.a best.b best.size =
      ⟨alo, alo, best.size + (best.a - alo)⟩ := by
    rw [← hdiag]
    exact extendBack_diag s alo best.a best.size hb1
  rw [hback]
  show (⟨alo, alo, extendFwd s s ahi ahi alo alo (best.size + (best.a - alo))⟩ : Match) =
    ⟨alo, alo, ahi - alo⟩
  rw [extendFwd, extendFwdAux_diag]
  have hsz : best.size + (best.a - alo) ≤ ahi - alo := by omega
  have e : best.size + (best.a - alo) +
      min (ahi - (alo + (best.size + (best.a - alo))))
        (ahi - (alo + (best.size + (best.a - alo)))) = ahi - alo := by
    omega
  rw [e]

/-- The blocks of a self-comparison are the whole string plus the
sentinel, so the matched total is the full length. -/
theorem matchesTotal_self (s : List Char) : matchesTotal s s = s.length := by
  by_cases hn : s.length = 0
  · rw [matchesTotal, get_matching_blocks, matchingBlocksWith]
    rw [show s.length + s.length + 1 = (s.length + s.length) + 1 from rfl]
    simp only [processQueue]
    rw [find_longest_match_diag s 0 s.length (Nat.zero_le _) (le_refl _)]
    simp [collapseAdjacent, hn]
  · rw [matchesTotal, get_matching_blocks, matchingBlocksWith]
    rw [show s.length + s.length + 1 = (s.length + s.length) + 1 from rfl]
    simp only [processQueue]
    rw [find_longest_match_diag s 0 s.length (Nat.zero_le _) (le_refl _)]
    dsimp only
    rw [if_pos (show s.length - 0 ≠ 0 by omega)]
    rw [if_neg (show ¬ ((0 : Nat) < 0 ∧ (0 : Nat) < 0) by omega)]
    rw [if_neg (show ¬ (0 + (s.length - 0) < s.length ∧ 0 + (s.length - 0) < s.length) by omega)]
    simp only [processQueue]
    rw [List.insertionSort]
    rw [List.insertionSort]
    rw [List.orderedInsert]
    rw [collapseAdjacent]
    rw [if_pos (show (0 : Nat) + 0 = 0 ∧ (0 : Nat) + 0 = 0 by omega)]
    rw [collapseAdjacent]
    rw [if_pos (show 0 + (s.length - 0) ≠ 0 by omega)]
    simp

/-- C3: comparing a file against a byte-identical copy of itself always
yields a similarity score of exactly 100.00. -/
theorem claim3_identical (f1 f2 : SrcFile) (h : f1.content = f2.content) :
    (compare_pair f1 f2).score = 100 := by
  show pairScore f1.content f2.content = 100
  rw [h]
  rw [pairScore, ratioOf, matchesTotal_self]
  by_cases hn : f2.content.length = 0
  · rw [calculate_ratio, if_neg (by omega)]
    norm_num [pyRound2, roundHalfEven]
  · rw [calculate_ratio, if_pos (by omega)]
    have he : (2 : ℚ) * (f2.content.length : ℚ) /
        ((f2.content.length + f2.content.length : Nat) : ℚ) = 1 := by
      have hpos : (0 : ℚ) < (f2.content.length : ℚ) := by
        exact_mod_cast Nat.pos_of_ne_zero hn
      push_cast
      field_simp
      ring
    rw [he]
    norm_num [pyRound2, roundHalfEven]

/-- C3 witness: a concrete identical pair scores 100. -/
theorem claim3_identical_witness :
    (⟨"a.py", ("abc").toList⟩ : SrcFile).content = (⟨"b.py", ("abc").toList⟩ : SrcFile).content ∧
      (compare_pair ⟨"a.py", ("abc").toList⟩ ⟨"b.py", ("abc").toList⟩).score = 100 :=
  ⟨rfl, claim3_identical ⟨"a.py", ("abc").toList⟩ ⟨"b.py", ("abc").toList⟩ rfl⟩

end Plag
